import Mathlib

/-!
Verification of the search-and-bookkeeping engine of the kernel-guided
fuzzer (src/src/benchmark_full_oracle.py and src/src/benchmark_full_oracle_tc.py).

The Python classes are shallowly embedded as Lean structures and total
functions: Python `set` becomes `Finset String`, Python `list` becomes
`List`, Python dicts become association lists or update functions, Python
ints become `Nat`/`Int`.  The md5 hexdigest used purely as a fingerprint is
modelled as an abstract function parameter `md5h : String → String` (every
theorem that depends on it either holds for all such functions or
instantiates it explicitly).  File manipulation (pickle save / load) is
modelled as a map from path strings to stored structured values; pickling
of the checkpointed value types round-trips, so the stored value is the
structured record itself.
-/

set_option maxHeartbeats 1000000
set_option maxRecDepth 100000

namespace KernelGuided

/-- ASCII word character, Python regex `\w`. -/
def isWordChar (c : Char) : Bool :=
  c.isAlpha || c.isDigit || c == '_'

/-- Whitespace as Python `str.strip` / regex `\s` treats ASCII text. -/
def pyIsSpace (c : Char) : Bool :=
  c == ' ' || c == '\t' || c == '\n' || c == '\r' || c == '\x0b' || c == '\x0c'

/-- Hexadecimal digit, Python regex `[0-9a-fA-F]`. -/
def isHexDigit (c : Char) : Bool :=
  c.isDigit || ('a' ≤ c && c ≤ 'f') || ('A' ≤ c && c ≤ 'F')

/-- `dropLit pat l` : if `pat` is a literal prefix of `l`, the rest of `l`. -/
def dropLit : List Char → List Char → Option (List Char)
  | [], s => some s
  | _ :: _, [] => none
  | p :: ps, c :: cs => if p = c then dropLit ps cs else none

/-- Does `s` start with `pat`? -/
def startsWithL : List Char → List Char → Bool
  | [], _ => true
  | _ :: _, [] => false
  | p :: ps, c :: cs => p == c && startsWithL ps cs

/-- Python's substring test `pat in s` on character lists. -/
def hasSubL (pat : List Char) : List Char → Bool
  | [] => startsWithL pat []
  | c :: cs => startsWithL pat (c :: cs) || hasSubL pat cs

/-- Python's substring test `pat in s` on strings. -/
def containsSub (s pat : String) : Bool :=
  hasSubL pat.toList s.toList

/-- Python `str.strip()` (both ends). -/
def pyStripL (l : List Char) : List Char :=
  ((l.dropWhile pyIsSpace).reverse.dropWhile pyIsSpace).reverse

def pyStrip (s : String) : String :=
  String.mk (pyStripL s.toList)

/-- Python `str.split(sep)` for a one-character separator: always returns at
least one (possibly empty) piece. -/
def splitOnCharL (sep : Char) : List Char → List (List Char)
  | [] => [[]]
  | c :: cs =>
    match splitOnCharL sep cs with
    | [] => [[c]]
    | h :: t => if c = sep then [] :: h :: t else (c :: h) :: t

/-- Python dict assignment `d[k] = v` on an association list: replaces the
first binding of `k` in place, else appends. -/
def dictSet {β : Type} : List (String × β) → String → β → List (String × β)
  | [], k, v => [(k, v)]
  | (k0, v0) :: rest, k, v =>
    if k0 = k then (k, v) :: rest else (k0, v0) :: dictSet rest k v

/-- Lookup with a default, Python `defaultdict` read. -/
def dictGetD {β : Type} (l : List (String × β)) (k : String) (d : β) : β :=
  (l.lookup k).getD d

/-- Python `str.replace(pat, rep)`: left-to-right, non-overlapping (fuelled
by the input length, which bounds the number of scan positions for the
non-empty patterns used here). -/
def pyReplaceAux (pat rep : List Char) : Nat → List Char → List Char
  | 0, l => l
  | _ + 1, [] => []
  | fuel + 1, c :: cs =>
    match dropLit pat (c :: cs) with
    | some rest => rep ++ pyReplaceAux pat rep fuel rest
    | none => c :: pyReplaceAux pat rep fuel cs

def pyReplace (s pat rep : String) : String :=
  String.mk (pyReplaceAux pat.toList rep.toList s.toList.length s.toList)

/-- Code-point lexicographic strict order on character lists, as Python
compares strings. -/
def listLex : List Char → List Char → Bool
  | [], [] => false
  | [], _ :: _ => true
  | _ :: _, [] => false
  | a :: as0, b :: bs0 => if a < b then true else if b < a then false else listLex as0 bs0

def strLe (x y : String) : Bool :=
  !(listLex y.toList x.toList)

/-- Python `sorted` on strings (insertion sort; agrees with any sort for the
total code-point order). -/
def insertSorted (x : String) : List String → List String
  | [] => [x]
  | y :: ys => if strLe x y then x :: y :: ys else y :: insertSorted x ys

def pySorted : List String → List String
  | [] => []
  | x :: xs => insertSorted x (pySorted xs)

/-- Python `str.lower()` for the ASCII texts at hand. -/
def pyLower (s : String) : String :=
  String.mk (s.toList.map Char.toLower)

/- ====================================================================
AdaptiveSaturationDetector (benchmark_full_oracle.py, lines 798-862).
==================================================================== -/

/-- State of `AdaptiveSaturationDetector`: a two-state machine
(`expansion_mode = false` is Normal, `true` is Expansion). -/
structure AdaptiveSaturationDetector where
  patience : Nat
  check_interval : Int
  no_discovery_count : Nat
  last_kernel_count : Nat
  last_check_iteration : Int
  expansion_mode : Bool
  expansion_count : Nat
deriving Repr, DecidableEq

/-- `__init__(patience, check_interval)`. -/
def AdaptiveSaturationDetector.mk0 (patience : Nat) (check_interval : Int) :
    AdaptiveSaturationDetector :=
  ⟨patience, check_interval, 0, 0, 0, false, 0⟩

/-- The periodic-check tail of `update`: at an interval boundary move
`last_check_iteration` forward and, when stagnation reached `patience` in
Normal mode, enter Expansion and signal `should_expand = true`. -/
def AdaptiveSaturationDetector.periodicCheck (s : AdaptiveSaturationDetector)
    (iteration : Int) : (Bool × String) × AdaptiveSaturationDetector :=
  if iteration - s.last_check_iteration ≥ s.check_interval then
    let s1 := { s with last_check_iteration := iteration }
    if s1.no_discovery_count ≥ s1.patience ∧ s1.expansion_mode = false then
      ((true, "Expanding search"),
        { s1 with expansion_mode := true, expansion_count := s1.expansion_count + 1 })
    else ((false, ""), s1)
  else ((false, ""), s)

/-- `update(current_kernels, iteration) -> (should_expand, message)`, also
returning the successor state.  Growth resets the stagnation counter and, when
in Expansion, returns to Normal immediately (before any boundary check);
otherwise the stagnation counter is incremented and the periodic check runs.
(The source's f-string messages are abbreviated to fixed strings.) -/
def AdaptiveSaturationDetector.update (s : AdaptiveSaturationDetector)
    (current_kernels : Nat) (iteration : Int) :
    (Bool × String) × AdaptiveSaturationDetector :=
  if current_kernels > s.last_kernel_count then
    let s1 := { s with no_discovery_count := 0, last_kernel_count := current_kernels }
    if s1.expansion_mode then
      ((false, "New kernels found! Returning to normal mode"),
        { s1 with expansion_mode := false })
    else s1.periodicCheck iteration
  else
    ({ s with no_discovery_count := s.no_discovery_count + 1 }).periodicCheck iteration

/-- Feed a list of `(current_kernels, iteration)` calls to the detector,
collecting the `should_expand` outputs. -/
def AdaptiveSaturationDetector.run (s : AdaptiveSaturationDetector) :
    List (Nat × Int) → List Bool × AdaptiveSaturationDetector
  | [] => ([], s)
  | (c, it) :: rest =>
    let r := s.update c it
    let t := r.2.run rest
    (r.1.1 :: t.1, t.2)

/- ====================================================================
EnhancedCoverageTracker (benchmark_full_oracle.py, lines 869-924; the tc
variant, benchmark_full_oracle_tc.py lines 712-740, is the same update
logic without the embedded detector).
==================================================================== -/

/-- State of `EnhancedCoverageTracker`. -/
structure EnhancedCoverageTracker where
  name : String
  all_kernels : Finset String
  kernel_provenance : String → Option Int
  history : List (Int × Nat)
  new_kernel_iterations : List Int
  saturation_detector : Option AdaptiveSaturationDetector

/-- `__init__(name, enable_adaptive_saturation)`; the embedded detector is
built with the source's defaults `patience = 500`, `check_interval = 100`. -/
def EnhancedCoverageTracker.mk0 (name : String) (enable_adaptive_saturation : Bool) :
    EnhancedCoverageTracker :=
  ⟨name, ∅, fun _ => none, [], [],
    if enable_adaptive_saturation then some (.mk0 500 100) else none⟩

/-- `update(new_kernels, iteration) -> (new_kernel_count, (should_expand, message))`,
also returning the successor state.  `fresh = new_kernels - known`;
provenance of each fresh token is recorded, the known set grows by `fresh`,
the history log gets `(iteration, |known|)`, and the embedded saturation
detector (when enabled) is fed the new total. -/
def EnhancedCoverageTracker.update (t : EnhancedCoverageTracker)
    (new_kernels : Finset String) (iteration : Int) :
    (Nat × (Bool × String)) × EnhancedCoverageTracker :=
  let fresh := new_kernels \ t.all_kernels
  let t1 :=
    if fresh = ∅ then t
    else
      { t with
        kernel_provenance := fun k =>
          if k ∈ fresh then some iteration else t.kernel_provenance k,
        all_kernels := t.all_kernels ∪ fresh,
        new_kernel_iterations := t.new_kernel_iterations ++ [iteration] }
  let num_fresh := fresh.card
  let t2 := { t1 with history := t1.history ++ [(iteration, t1.all_kernels.card)] }
  match t2.saturation_detector with
  | none => ((num_fresh, (false, "")), t2)
  | some d =>
    let r := d.update t2.all_kernels.card iteration
    ((num_fresh, r.1), { t2 with saturation_detector := some r.2 })

/-- `get_total()`. -/
def EnhancedCoverageTracker.get_total (t : EnhancedCoverageTracker) : Nat :=
  t.all_kernels.card

/-- `get_exclusive(other)`. -/
def EnhancedCoverageTracker.get_exclusive (t other : EnhancedCoverageTracker) :
    Finset String :=
  t.all_kernels \ other.all_kernels

/-- `get_overlap(other)`. -/
def EnhancedCoverageTracker.get_overlap (t other : EnhancedCoverageTracker) :
    Finset String :=
  t.all_kernels ∩ other.all_kernels

/-- Feed a list of `(token set, iteration)` calls to the tracker. -/
def EnhancedCoverageTracker.runUpdates (t : EnhancedCoverageTracker) :
    List (Finset String × Int) → EnhancedCoverageTracker
  | [] => t
  | (ks, it) :: rest => ((t.update ks it).2).runUpdates rest

/- ====================================================================
EvolutionaryCorpus (benchmark_full_oracle.py lines 931-954, and the tc
variant with seed scores, benchmark_full_oracle_tc.py lines 676-710).
==================================================================== -/

/-- `EvolutionaryCorpus` of benchmark_full_oracle.py: a bounded FIFO list of
stored candidates (`copy.deepcopy` snapshots modelled by value semantics). -/
structure EvolutionaryCorpus (α : Type) where
  corpus : List α
  max_size : Nat

def EvolutionaryCorpus.mk0 (α : Type) (max_size : Nat) : EvolutionaryCorpus α :=
  ⟨[], max_size⟩

/-- `add_seed(api, discovered_kernels)`: no-op when `len(discovered_kernels) == 0`,
else append a snapshot and, when over `max_size`, `pop(0)` the oldest. -/
def EvolutionaryCorpus.add_seed {α : Type} (c : EvolutionaryCorpus α)
    (api : α) (discovered_kernels : Finset String) : EvolutionaryCorpus α :=
  if discovered_kernels.card = 0 then c
  else
    let c1 := { c with corpus := c.corpus ++ [api] }
    if c1.corpus.length > c1.max_size then { c1 with corpus := c1.corpus.tail } else c1

/-- `select_parent()`: `None` on an empty corpus, else `random.choice(corpus)`;
the uniformly random draw is modelled by an arbitrary index oracle `choice`. -/
def EvolutionaryCorpus.select_parent {α : Type} (c : EvolutionaryCorpus α)
    (choice : Nat) : Option α :=
  if c.corpus.isEmpty then none
  else c.corpus.get? (choice % c.corpus.length)

def EvolutionaryCorpus.size {α : Type} (c : EvolutionaryCorpus α) : Nat :=
  c.corpus.length

/-- The tc variant `EvolutionaryCorpus` keeps a parallel `seed_scores` list. -/
structure EvolutionaryCorpusTC (α : Type) where
  corpus : List α
  seed_scores : List Nat
  max_size : Nat

def EvolutionaryCorpusTC.mk0 (α : Type) (max_size : Nat) : EvolutionaryCorpusTC α :=
  ⟨[], [], max_size⟩

/-- tc `add_seed`: as the oracle variant, also recording
`len(discovered_kernels)` as the seed's score and evicting both in step. -/
def EvolutionaryCorpusTC.add_seed {α : Type} (c : EvolutionaryCorpusTC α)
    (api : α) (discovered_kernels : Finset String) : EvolutionaryCorpusTC α :=
  if discovered_kernels.card = 0 then c
  else
    let c1 := { c with corpus := c.corpus ++ [api],
                       seed_scores := c.seed_scores ++ [discovered_kernels.card] }
    if c1.corpus.length > c1.max_size then
      { c1 with corpus := c1.corpus.tail, seed_scores := c1.seed_scores.tail }
    else c1

/-- tc `select_parent`: `None` on an empty corpus, else a score-weighted draw
`np.random.choice(len(corpus), p=probs)`, modelled by an index oracle that the
weights only bias, never move outside the corpus. -/
def EvolutionaryCorpusTC.select_parent {α : Type} (c : EvolutionaryCorpusTC α)
    (choice : Nat) : Option α :=
  if c.corpus.isEmpty then none
  else c.corpus.get? (choice % c.corpus.length)

/- ====================================================================
CheckpointManager (benchmark_full_oracle.py, lines 227-302).
==================================================================== -/

/-- The pickled checkpoint bundle written by `CheckpointManager.save`. -/
structure CheckpointData (α : Type) where
  iteration : Int
  coverage_kernels : Finset String
  corpus_seeds : Option (List α)
  logger_iterations : Nat
  strategy : String
  api_name : String

/-- `api_name.replace('.', '_').replace('::', '_')`. -/
def sanitizeApiName (s : String) : String :=
  pyReplace (pyReplace s "." "_") "::" "_"

/-- A `CheckpointManager` instance: the identifiers that determine the
checkpoint file's path (the checkpoint directory is common and omitted). -/
structure CheckpointManager where
  strategy : String
  api_name : String

def CheckpointManager.mk0 (strategy api_name : String) : CheckpointManager :=
  ⟨strategy, sanitizeApiName api_name⟩

/-- `self.checkpoint_file`: `api_name_strategy_checkpoint.pkl`. -/
def CheckpointManager.checkpointFile (m : CheckpointManager) : String :=
  m.api_name ++ "_" ++ m.strategy ++ "_checkpoint.pkl"

/-- `save(iteration, coverage_kernels, corpus_seeds, logger_iterations)`:
builds the checkpoint bundle and writes it to the checkpoint path (write to
temp then atomic replace, modelled as one map update); returns success. -/
def CheckpointManager.save {α : Type} (m : CheckpointManager)
    (fsys : String → Option (CheckpointData α)) (iteration : Int)
    (coverage_kernels : Finset String) (corpus_seeds : Option (List α))
    (logger_iterations : Nat) : Bool × (String → Option (CheckpointData α)) :=
  let checkpoint_data : CheckpointData α :=
    ⟨iteration, coverage_kernels, corpus_seeds, logger_iterations, m.strategy, m.api_name⟩
  (true, fun p => if p = m.checkpointFile then some checkpoint_data else fsys p)

/-- `load()`: `None` when the file does not exist, else the unpickled bundle. -/
def CheckpointManager.load {α : Type} (m : CheckpointManager)
    (fsys : String → Option (CheckpointData α)) : Option (CheckpointData α) :=
  fsys m.checkpointFile

/-- `clear()`: remove the checkpoint file. -/
def CheckpointManager.clear {α : Type} (m : CheckpointManager)
    (fsys : String → Option (CheckpointData α)) : String → Option (CheckpointData α) :=
  fun p => if p = m.checkpointFile then none else fsys p

/- ====================================================================
BugAnalyzer (benchmark_full_oracle.py, lines 422-484).  Its class attribute
REGEX_PATTERNS (number / address / shape scrubbing rules) is defined in the
source but never used by get_signature or classify_bug.
==================================================================== -/

/-- `[a-z0-9]`, the dtype-name character class. -/
def isDtypeChar (c : Char) : Bool :=
  ('a' ≤ c && c ≤ 'z') || c.isDigit

/-- Case-insensitive literal match: `pat` (lowercase) against `l` lowered;
returns the rest of `l` on success. -/
def dropLitCI : List Char → List Char → Option (List Char)
  | [], s => some s
  | _ :: _, [] => none
  | p :: ps, c :: cs => if p = c.toLower then dropLitCI ps cs else none

/-- One attempt of `re` matching `dtype\s*=\s*(torch\.[a-z0-9]+)` anchored at
the head of `l`: on success, the captured group and the rest of `l`. -/
def matchDtypeAt (l : List Char) : Option (List Char × List Char) :=
  match dropLit "dtype".toList l with
  | none => none
  | some r1 =>
    match (r1.dropWhile pyIsSpace) with
    | '=' :: r3 =>
      match dropLit "torch.".toList (r3.dropWhile pyIsSpace) with
      | none => none
      | some r5 =>
        let run := r5.takeWhile isDtypeChar
        if run.isEmpty then none
        else some ("torch.".toList ++ run, r5.dropWhile isDtypeChar)
    | _ => none

/-- `re.findall(r'dtype\s*=\s*(torch\.[a-z0-9]+)', content)`: leftmost,
non-overlapping scan collecting the captured groups (fuelled by the input
length, which bounds the number of scan positions). -/
def findallDtypeAux : Nat → List Char → List String
  | 0, _ => []
  | _ + 1, [] => []
  | fuel + 1, c :: cs =>
    match matchDtypeAt (c :: cs) with
    | some (g, rest) => String.mk g :: findallDtypeAux fuel rest
    | none => findallDtypeAux fuel cs

def findallDtype (l : List Char) : List String :=
  findallDtypeAux l.length l

/-- The tail of the shape pattern after `torch\.rand(?:int)?`:
`\s*\(\s*[\[\(]([^\]\)]+)[\]\)]`, returning the captured group and rest. -/
def matchShapeTail (l : List Char) : Option (List Char × List Char) :=
  match (l.dropWhile pyIsSpace) with
  | '(' :: r2 =>
    match (r2.dropWhile pyIsSpace) with
    | b :: r4 =>
      if b = '[' ∨ b = '(' then
        let grp := r4.takeWhile (fun c => !(c = ']' || c = ')'))
        match r4.dropWhile (fun c => !(c = ']' || c = ')')) with
        | e :: rest =>
          if grp.isEmpty then none
          else if e = ']' ∨ e = ')' then some (grp, rest) else none
        | [] => none
      else none
    | [] => none
  | _ => none

/-- One attempt of `torch\.rand(?:int)?\s*\(\s*[\[\(]([^\]\)]+)[\]\)]`
anchored at the head of `l` (the optional `int` alternative is tried greedily
first, as `re` does). -/
def matchShapeAt (l : List Char) : Option (List Char × List Char) :=
  match dropLit "torch.rand".toList l with
  | none => none
  | some r1 =>
    match dropLit "int".toList r1 with
    | some r2 =>
      match matchShapeTail r2 with
      | some g => some g
      | none => matchShapeTail r1
    | none => matchShapeTail r1

/-- `re.findall` for the shape pattern. -/
def findallShapeAux : Nat → List Char → List (List Char)
  | 0, _ => []
  | _ + 1, [] => []
  | fuel + 1, c :: cs =>
    match matchShapeAt (c :: cs) with
    | some (g, rest) => g :: findallShapeAux fuel rest
    | none => findallShapeAux fuel cs

def findallShape (l : List Char) : List (List Char) :=
  findallShapeAux l.length l

/-- `re.search(r'\bword\b', content, re.IGNORECASE)` for a lowercase `word`:
a match at the head of `l` whose left context is `prev`. -/
def matchWordAt (w : List Char) (prev : Option Char) (l : List Char) : Bool :=
  (match prev with
   | none => true
   | some p => !isWordChar p) &&
  (match dropLitCI w l with
   | none => false
   | some [] => true
   | some (c :: _) => !isWordChar c)

def searchWordAux (w : List Char) (prev : Option Char) : List Char → Bool
  | [] => false
  | c :: cs => matchWordAt w prev (c :: cs) || searchWordAux w (some c) cs

/-- Whole-text case-insensitive word search. -/
def searchWordCI (w : String) (content : String) : Bool :=
  searchWordAux w.toList none content.toList

namespace BugAnalyzer

/-- `BugAnalyzer.get_signature(content)`: a code-feature fingerprint — the
sorted `dtype=` / `ndim=` / `NaN` / `Inf` features joined by `|`, or, with no
feature, `hash=` followed by the md5 hexdigest truncated to 12 characters
(the truncated hexdigest is the abstract `md5h`). -/
def get_signature (md5h : String → String) (content : String) : String :=
  if content = "" then "unknown_empty"
  else
    let dtype_matches := findallDtype content.toList
    let f1 : List String :=
      if dtype_matches.isEmpty then []
      else ["dtype=" ++ String.intercalate "," (pySorted dtype_matches.dedup)]
    let shape_matches := findallShape content.toList
    let f2 : List String :=
      match shape_matches with
      | [] => []
      | shape :: _ => ["ndim=" ++ toString (shape.count ',' + 1)]
    let f3 : List String := if searchWordCI "nan" content then ["NaN"] else []
    let f4 : List String := if searchWordCI "inf" content then ["Inf"] else []
    let features := f1 ++ f2 ++ f3 ++ f4
    if features.isEmpty then "hash=" ++ md5h content
    else String.intercalate "|" (pySorted features)

def deep_keywords : List String :=
  ["cuda", "kernel", "launch", "cublas", "cudnn", "internal", "assert"]

def shallow_keywords : List String :=
  ["type", "shape", "dim", "expect", "got", "invalid", "implement"]

/-- `BugAnalyzer.classify_bug(error_msg)`: first-match priority over the
lowercased signature — crash markers, then deep/internal keywords, then
shallow/validation keywords, else `RUNTIME_OTHER`. -/
def classify_bug (md5h : String → String) (error_msg : String) : String :=
  let sig := pyLower (get_signature md5h error_msg)
  if containsSub sig "segfault" || containsSub sig "core_dump" then "CRITICAL_SEGFAULT"
  else if deep_keywords.any (fun k => containsSub sig k) then "DEEP_INTERNAL"
  else if shallow_keywords.any (fun k => containsSub sig k) then "SHALLOW_CHECK"
  else "RUNTIME_OTHER"

end BugAnalyzer

/- ====================================================================
RealTimeBugDeduplicator (benchmark_full_oracle.py, lines 594-683).
CLEAN_PATTERNS are applied in the source's order; each `re.sub` is embedded
as a left-to-right, non-overlapping scanner.  Backtracking never changes
these patterns' matches (each is a chain of greedy character-class runs
whose shortening cannot satisfy the following literal), so the scanners
match `re` semantics.
==================================================================== -/

/-- Dropping a while-run never lengthens a list. -/
theorem length_dropWhileChar_le (p : Char → Bool) (l : List Char) :
    (l.dropWhile p).length ≤ l.length := by
  induction l with
  | nil => simp
  | cons c cs ih =>
    by_cases h : p c
    · rw [List.dropWhile_cons_of_pos h]; simp; omega
    · rw [List.dropWhile_cons_of_neg h]

/-- A successful literal drop removes exactly the literal's length. -/
theorem dropLit_length : ∀ p l r, dropLit p l = some r → r.length + p.length = l.length := by
  intro p
  induction p with
  | nil => intro l r h; simp [dropLit] at h; subst h; simp
  | cons a ps ih =>
    intro l r h
    match l with
    | [] => simp [dropLit] at h
    | c :: cs =>
      simp only [dropLit] at h
      split_ifs at h with he
      · have := ih cs r h
        simp
        omega

/-- `re.sub(r'0x[0-9a-fA-F]+', 'ADDR', ...)`. -/
def subAddr : List Char → List Char
  | [] => []
  | '0' :: 'x' :: r2 =>
    if (r2.takeWhile isHexDigit).isEmpty then '0' :: subAddr ('x' :: r2)
    else "ADDR".toList ++ subAddr (r2.dropWhile isHexDigit)
  | c :: rest => c :: subAddr rest
termination_by l => l.length
decreasing_by
  all_goals simp_wf
  all_goals try omega
  · have h := length_dropWhileChar_le isHexDigit r2
    omega

/-- `re.sub(r'\d+\.\d+', 'FLOAT', ...)`. -/
def subFloat : List Char → List Char
  | [] => []
  | c :: rest =>
    if c.isDigit then
      match h : rest.dropWhile Char.isDigit with
      | '.' :: r2 =>
        if (r2.takeWhile Char.isDigit).isEmpty then c :: subFloat rest
        else "FLOAT".toList ++ subFloat (r2.dropWhile Char.isDigit)
      | _ => c :: subFloat rest
    else c :: subFloat rest
termination_by l => l.length
decreasing_by
  all_goals simp_wf
  all_goals try omega
  · have h1 := length_dropWhileChar_le Char.isDigit cs
    have h2 := length_dropWhileChar_le Char.isDigit r2
    rw [h] at h1
    simp at h1
    omega

/-- `re.sub(r'(?<!\w)\d+(?!\w)', 'INT', ...)`: `prev` is the character left
of the scan position in the original string (`none` at the start).  After a
replacement the scan resumes after the matched run; the character left of
that position is the run's last digit, whose only use is the `\w` lookbehind
test, on which every digit agrees, so the run's first digit is passed. -/
def subIntAux (prev : Option Char) : List Char → List Char
  | [] => []
  | c :: rest =>
    if c.isDigit && (match prev with | none => true | some p => !isWordChar p) then
      match hdw : rest.dropWhile Char.isDigit with
      | [] => "INT".toList
      | e :: r2 =>
        if isWordChar e then c :: subIntAux (some c) rest
        else "INT".toList ++ subIntAux (some c) (e :: r2)
    else c :: subIntAux (some c) rest
termination_by l => l.length
decreasing_by
  all_goals simp_wf
  all_goals try omega
  · have h1 := length_dropWhileChar_le Char.isDigit cs
    rw [hdw] at h1
    simp at h1
    omega

/-- `re.sub(r'\[.*?\]', '[SHAPE]', ...)` (`.` does not cross a newline; the
non-greedy body ends at the first `]`). -/
def subShape : List Char → List Char
  | [] => []
  | '[' :: rest =>
    match h : rest.dropWhile (fun c => !(c = ']' || c = '\n')) with
    | ']' :: r2 => "[SHAPE]".toList ++ subShape r2
    | _ => '[' :: subShape rest
  | c :: rest => c :: subShape rest
termination_by l => l.length
decreasing_by
  all_goals simp_wf
  all_goals try omega
  · have h1 := length_dropWhileChar_le (fun c => !(c = ']' || c = '\n')) rest
    rw [h] at h1
    simp at h1
    omega

/-- The `.*?:\d+` tail of the `at`-pattern: scan (never across a newline)
for the first `:` followed by at least one digit; the rest after the greedy
digit run. -/
def findColonNum : List Char → Option (List Char)
  | [] => none
  | c :: cs =>
    if c = ':' then
      if (cs.takeWhile Char.isDigit).isEmpty then findColonNum cs
      else some (cs.dropWhile Char.isDigit)
    else if c = '\n' then none
    else findColonNum cs

/-- `findColonNum` strictly shortens. -/
theorem findColonNum_length : ∀ l r, findColonNum l = some r → r.length < l.length := by
  intro l
  induction l with
  | nil => intro r h; simp [findColonNum] at h
  | cons c cs ih =>
    intro r h
    simp only [findColonNum] at h
    split_ifs at h with h1 h2 h3
    · have := ih r h
      simp
      omega
    · have h2 := length_dropWhileChar_le Char.isDigit cs
      have h3 := Option.some.inj h
      rw [← h3]
      simp
      omega
    · have := ih r h
      simp
      omega

/-- `re.sub(r'at .*?:\d+', 'at FILE:LINE', ...)`. -/
def subAtFile : List Char → List Char
  | [] => []
  | c :: rest =>
    match h2 : dropLit "at ".toList (c :: rest) with
    | some r1 =>
      match h3 : findColonNum r1 with
      | some r2 => "at FILE:LINE".toList ++ subAtFile r2
      | none => c :: subAtFile rest
    | none => c :: subAtFile rest
termination_by l => l.length
decreasing_by
  all_goals simp_wf
  all_goals try omega
  · have h4 := findColonNum_length r1 r2 h3
    have h5 := dropLit_length "at ".toList (c :: cs) r1 h2
    simp at h5
    omega

/-- `re.sub(r'\s+', ' ', ...)`. -/
def subSpace : List Char → List Char
  | [] => []
  | c :: rest =>
    if pyIsSpace c then ' ' :: subSpace (rest.dropWhile pyIsSpace)
    else c :: subSpace rest
termination_by l => l.length
decreasing_by
  all_goals simp_wf
  all_goals try omega
  · have h1 := length_dropWhileChar_le pyIsSpace cs
    omega

/-- The five CLEAN_PATTERNS substitutions in the source's order. -/
def rtCleanLine (l : List Char) : List Char :=
  subSpace (subAtFile (subShape (subIntAux none (subFloat (subAddr l)))))

/-- The line-keyword markers searched by `get_signature`. -/
def rtMarkers : List String :=
  ["Error:", "Exception:", "INTERNAL ASSERT"]

namespace RealTimeBugDeduplicator

/-- `RealTimeBugDeduplicator.get_signature(error_msg)`: pick the most
diagnostic line (the last one holding an error marker, else the final line),
scrub addresses / numbers / shapes / file positions / whitespace, return
`SEGFAULT` outright when the raw text holds a segmentation-fault marker, and
truncate to 200 characters. -/
def get_signature (error_msg : String) : String :=
  if error_msg = "" then "UNKNOWN"
  else
    let lines := splitOnCharL '\n' (pyStripL error_msg.toList)
    let core_msg :=
      (lines.reverse.find? (fun ln =>
        rtMarkers.any (fun kw => hasSubL kw.toList ln))).getD (lines.getLastD [])
    let clean_msg := rtCleanLine core_msg
    if containsSub error_msg "Segmentation fault" then "SEGFAULT"
    else String.mk ((pyStripL clean_msg).take 200)

/-- Deduplicator state: per-bucket signature-hash sets and counters. -/
structure State where
  max_signatures : Nat
  signatures : List (String × Finset String)
  first_occurrence : List (String × (String × String × Int × String))
  total_bugs : List (String × Nat)
  unique_bugs : List (String × Nat)

/-- `__init__(max_signatures)`. -/
def State.mk0 (max_signatures : Nat) : State :=
  ⟨max_signatures,
    [("crash", ∅), ("cuda", ∅), ("precision", ∅)],
    [],
    [("crash", 0), ("cuda", 0), ("precision", 0)],
    [("crash", 0), ("cuda", 0), ("precision", 0)]⟩

/-- `record_bug(oracle_type, error_msg, iteration) -> (is_new, signature)`:
normalize the bucket (unknown types fall back to `crash`), count the
occurrence, hash the signature (md5, abstract `md5h`), and store it unless
it is already present or the bucket is at capacity. -/
def record_bug (md5h : String → String) (d : State) (oracle_type error_msg : String)
    (iteration : Int) : (Bool × String) × State :=
  let ot0 := pyLower oracle_type
  let ot := if (d.signatures.lookup ot0).isNone then "crash" else ot0
  let d1 := { d with total_bugs := dictSet d.total_bugs ot (dictGetD d.total_bugs ot 0 + 1) }
  let signature := get_signature error_msg
  let sig_hash := md5h signature
  let bucket := dictGetD d1.signatures ot ∅
  if sig_hash ∈ bucket then ((false, signature), d1)
  else if bucket.card ≥ d1.max_signatures then ((false, signature), d1)
  else
    ((true, signature),
      { d1 with
        signatures := dictSet d1.signatures ot (insert sig_hash bucket),
        unique_bugs := dictSet d1.unique_bugs ot (dictGetD d1.unique_bugs ot 0 + 1),
        first_occurrence := dictSet d1.first_occurrence sig_hash
          (ot, signature, iteration, String.mk (error_msg.toList.take 300)) })

end RealTimeBugDeduplicator

/- ====================================================================
Texts identical except for embedded numbers: the template model used to
state claim C6.  A diagnostic is rendered from a list of lines, each an
alternation of shared literal segments (`lit`), decimal integer literals
(`num`) and hexadecimal addresses (`addr`); two diagnostics are "identical
except for embedded decimal literals / hex addresses" when they render from
shape-equal templates (same literals, holes of the same kind in the same
places).  Well-formedness: literals are digit-free, holes are flanked by
non-word, non-dot characters (a literal written into running text), lines
hold no newline, and the rendered text has no leading or trailing
whitespace.
==================================================================== -/

inductive Chunk where
  | lit (s : List Char)
  | num (d : List Char)
  | flt (d1 d2 : List Char)
  | addr (h : List Char)
deriving Repr, DecidableEq

def Chunk.render : Chunk → List Char
  | .lit s => s
  | .num d => d
  | .flt d1 d2 => d1 ++ '.' :: d2
  | .addr h => '0' :: 'x' :: h

def renderChunks (cs : List Chunk) : List Char :=
  (cs.map Chunk.render).flatten

/-- Same shape: equal literals, holes of equal kind in the same places. -/
def Chunk.sameShape : Chunk → Chunk → Bool
  | .lit s, .lit t => s = t
  | .num _, .num _ => true
  | .flt _ _, .flt _ _ => true
  | .addr _, .addr _ => true
  | _, _ => false

def sameShapeL : List Chunk → List Chunk → Bool
  | [], [] => true
  | a :: as0, b :: bs0 => a.sameShape b && sameShapeL as0 bs0
  | _, _ => false

def sameShapeT : List (List Chunk) → List (List Chunk) → Bool
  | [], [] => true
  | a :: as0, b :: bs0 => sameShapeL a b && sameShapeT as0 bs0
  | _, _ => false

/-- A character that may flank an embedded numeric literal: not a word
character and not a dot. -/
def safeChar (c : Char) : Bool :=
  !isWordChar c && c ≠ '.'

def Chunk.wf : Chunk → Bool
  | .lit s => !s.isEmpty && s.all (fun c => !c.isDigit && c ≠ '\n')
  | .num d => !d.isEmpty && d.all Char.isDigit
  | .flt d1 d2 => !d1.isEmpty && d1.all Char.isDigit && !d2.isEmpty && d2.all Char.isDigit
  | .addr h => !h.isEmpty && h.all isHexDigit

/-- Adjacent chunks: literals and holes alternate, and the literal character
touching a hole is safe. -/
def okPair : Chunk → Chunk → Bool
  | .lit s, .num _ => (s.getLast?.map safeChar).getD false
  | .lit s, .flt _ _ => (s.getLast?.map safeChar).getD false
  | .lit s, .addr _ => (s.getLast?.map safeChar).getD false
  | .num _, .lit t => (t.head?.map safeChar).getD false
  | .flt _ _, .lit t => (t.head?.map safeChar).getD false
  | .addr _, .lit t => (t.head?.map safeChar).getD false
  | _, _ => false

def wfChunks : List Chunk → Bool
  | [] => true
  | [a] => a.wf
  | a :: b :: rest => a.wf && okPair a b && wfChunks (b :: rest)

def wfT (t : List (List Chunk)) : Bool :=
  t.all wfChunks

/-- Joining the line renders with newlines. -/
def renderLines : List (List Chunk) → List Char
  | [] => []
  | [l] => renderChunks l
  | l :: ls => renderChunks l ++ '\n' :: renderLines ls

/-- No leading / trailing whitespace in the whole rendered text. -/
def noEdgeSpace (l : List Char) : Bool :=
  ((l.head?.map (fun c => !pyIsSpace c)).getD true) &&
  ((l.getLast?.map (fun c => !pyIsSpace c)).getD true)

/-- The text after the `ADDR` substitution pass: address holes scrubbed. -/
def chA : Chunk → List Char
  | .addr _ => "ADDR".toList
  | ch => ch.render

def flattenA (cs : List Chunk) : List Char :=
  (cs.map chA).flatten

/-- After the `FLOAT` pass: float holes scrubbed as well. -/
def chB : Chunk → List Char
  | .addr _ => "ADDR".toList
  | .flt _ _ => "FLOAT".toList
  | ch => ch.render

def flattenB (cs : List Chunk) : List Char :=
  (cs.map chB).flatten

/-- After the `INT` pass: every hole scrubbed; fully determined by shape. -/
def scrubC : Chunk → List Char
  | .lit s => s
  | .num _ => "INT".toList
  | .flt _ _ => "FLOAT".toList
  | .addr _ => "ADDR".toList

def scrubRender (cs : List Chunk) : List Char :=
  (cs.map scrubC).flatten

/-- For a keyword whose leading characters are hexadecimal digits, the first
non-hexadecimal character must be a word character (then a match cannot leave
the inside of an address hole into a safe boundary character); an all-hex
keyword is rejected. -/
def tailOK : List Char → Bool
  | [] => false
  | c :: m2 => if isHexDigit c then tailOK m2 else isWordChar c

/-- The keyword side conditions under which an occurrence of the keyword in
a rendered template can only lie inside a literal chunk: the keyword is
nonempty, holds no digit, newline or dot, does not start with `x`, and
satisfies the hex-run condition when it starts with a hex digit. -/
def markerOK : List Char → Bool
  | [] => false
  | c :: rest =>
    (c :: rest).all (fun a => !a.isDigit && a ≠ '\n' && a ≠ '.')
    && !(c = 'x') && (!isHexDigit c || tailOK rest)

/-- The keyword occurs inside the chunk, which is a literal. -/
def litHas (m : List Char) : Chunk → Bool
  | .lit s => hasSubL m s
  | _ => false

/-- The line-selection predicate of `get_signature` on a raw line. -/
def pLine (ln : List Char) : Bool :=
  rtMarkers.any (fun kw => hasSubL kw.toList ln)

/-- The same predicate computed on a template line through its literals. -/
def pShape (cs : List Chunk) : Bool :=
  rtMarkers.any (fun kw => cs.any (litHas kw.toList))

/- ====================================================================
DispatcherSpace (benchmark_full_oracle.py, lines 681-799).
==================================================================== -/

/-- The `ArgType` values `record_hit` inspects. -/
inductive PyArgType where
  | torchDtype
  | otherType
deriving Repr, DecidableEq

/-- A `TorchAPI` argument as `DispatcherSpace.record_hit` sees it through
`hasattr`: an optional `dtype` attribute, and optional `value`/`type`
attributes. -/
structure OracleArg where
  dtype : Option String
  ty : Option PyArgType
  value : Option String
deriving Repr, DecidableEq

/-- The slice of a `TorchAPI` instance that `record_hit` reads: its named
arguments (an argument may be `None`). -/
structure TorchAPI where
  args : List (String × Option OracleArg)
deriving Repr, DecidableEq

/-- `str(x).replace('torch.', '')`. -/
def stripTorch (s : String) : String :=
  pyReplace s "torch." ""

/-- The dtype strings `record_hit` extracts from `api.args`, in argument
order (the Python code accumulates them in a `set`; the later
`sorted(dtypes_found)` makes the collection order irrelevant, so the set is
modelled as the deduplicated list). -/
def dtypesFound (api : TorchAPI) : List String :=
  (api.args.foldl
    (fun acc p =>
      match p.2 with
      | none => acc
      | some arg =>
        match arg.dtype with
        | some d => acc ++ [stripTorch d]
        | none =>
          match arg.value, arg.ty with
          | some v, some PyArgType.torchDtype => acc ++ [stripTorch v]
          | _, _ => acc)
    []).dedup

/-- `DEFAULT_DIMENSIONS` of `DispatcherSpace`. -/
def DEFAULT_DIMENSIONS : List (String × List String) :=
  [("dtype", ["float16", "float32", "float64", "bfloat16",
              "int8", "int16", "int32", "int64", "uint8",
              "bool", "complex64", "complex128"]),
   ("device", ["cpu", "cuda"])]

/-- State of `DispatcherSpace` (combinatorial coverage-space model). -/
structure DispatcherSpace where
  max_hits : Nat
  api_dimensions : List (String × List (String × List String))
  hits : List (String × Finset String)
  theoretical_sizes : List (String × Nat)
  total_records : Nat
  overflow_warnings : Nat

def DispatcherSpace.mk0 (max_hits : Nat) : DispatcherSpace :=
  ⟨max_hits, [], [], [], 0, 0⟩

/-- `register_api(api_name, dimensions)`: records the axes, computes the
theoretical denominator `∏ |domain_i|` and resets the hit set. -/
def DispatcherSpace.register_api (s : DispatcherSpace) (api_name : String)
    (dimensions : Option (List (String × List String))) : DispatcherSpace :=
  let dims := dimensions.getD DEFAULT_DIMENSIONS
  let size := (dims.map (fun d => d.2.length)).prod
  { s with
    api_dimensions := dictSet s.api_dimensions api_name dims,
    theoretical_sizes := dictSet s.theoretical_sizes api_name size,
    hits := dictSet s.hits api_name ∅ }

/-- `record_hit(api_name, api, is_cuda) -> is_new`: auto-registers an unknown
api with the default axes; past `max_hits` total records only counts an
overflow; builds `state_parts` from the device and the extracted dtypes,
rejects the observation when no dtype was found, hashes the joined state
string with md5 (abstract `md5h`) and inserts it into the per-api hit set. -/
def DispatcherSpace.record_hit (md5h : String → String) (s : DispatcherSpace)
    (api_name : String) (api : TorchAPI) (is_cuda : Bool) : Bool × DispatcherSpace :=
  let s0 := if (s.api_dimensions.lookup api_name).isNone
            then s.register_api api_name none else s
  if s0.total_records ≥ s0.max_hits then
    (false, { s0 with overflow_warnings := s0.overflow_warnings + 1 })
  else
    let device := if is_cuda then "cuda" else "cpu"
    let state_parts :=
      ("dev=" ++ device) ::
        (pySorted (dtypesFound api)).map (fun d => "d=" ++ d)
    if state_parts.length ≤ 1 then (false, s0)
    else
      let state_str := String.intercalate "|" (pySorted state_parts)
      let state_hash := md5h state_str
      if state_hash ∉ dictGetD s0.hits api_name ∅ then
        (true, { s0 with
          hits := dictSet s0.hits api_name (insert state_hash (dictGetD s0.hits api_name ∅)),
          total_records := s0.total_records + 1 })
      else (false, s0)

/-- `get_coverage(api_name)`: `|hits| / theoretical` (0.0 for an unknown api
or a zero denominator); the float quotient is modelled exactly in `ℚ`. -/
def DispatcherSpace.get_coverage (s : DispatcherSpace) (api_name : String) : ℚ :=
  match s.theoretical_sizes.lookup api_name with
  | none => 0
  | some theoretical =>
    if theoretical > 0 then
      ((dictGetD s.hits api_name ∅).card : ℚ) / (theoretical : ℚ)
    else 0

/- ====================================================================
DispatcherSpace, tc variant (benchmark_full_oracle_tc.py, lines 128-380).
==================================================================== -/

/-- tc `DispatcherSpace` default axes. -/
def DEFAULT_DIMENSIONS_TC : List (String × List String) :=
  [("dtype", ["float16", "float32", "float64", "bfloat16",
              "int8", "int16", "int32", "int64", "uint8",
              "bool", "complex64", "complex128"]),
   ("device", ["cpu", "cuda"])]

/-- State of the tc `DispatcherSpace`: hits are stored as
`frozenset(filtered_state.items())`, modelled as `Finset (String × String)`. -/
structure DispatcherSpaceTC where
  api_dimensions : List (String × List (String × List String))
  api_denominator : List (String × Nat)
  api_hits : List (String × Finset (Finset (String × String)))
  total_record_calls : Nat
  total_unique_hits : Nat

def DispatcherSpaceTC.mk0 : DispatcherSpaceTC :=
  ⟨[], [], [], 0, 0⟩

/-- tc `register_api(api_name, dimensions)`. -/
def DispatcherSpaceTC.register_api (s : DispatcherSpaceTC) (api_name : String)
    (dimensions : Option (List (String × List String))) : DispatcherSpaceTC :=
  let dims := dimensions.getD DEFAULT_DIMENSIONS_TC
  let denominator := (dims.map (fun d => d.2.length)).prod
  { s with
    api_dimensions := dictSet s.api_dimensions api_name dims,
    api_denominator := dictSet s.api_denominator api_name denominator }

/-- The sentinel-filtering loop of tc `record_hit`: for each registered axis,
an observed value inside the domain is kept, one outside becomes `"other"`,
a missing axis becomes `"unknown"`. -/
def filteredState (dims : List (String × List String))
    (state_dict : List (String × String)) : List (String × String) :=
  dims.map (fun d =>
    match state_dict.lookup d.1 with
    | some v => (d.1, if v ∈ d.2 then v else "other")
    | none => (d.1, "unknown"))

/-- tc `record_hit(api_name, state_dict) -> is_new`: auto-registers an
unknown api, applies the sentinel filtering, and inserts the frozenset state
key into the per-api hit set (the observation is always recorded).  The
`api`-object path delegates to the out-of-scope `_extract_state_from_args`
collaborator, which produces exactly such a `state_dict`; when both are
`None` the dict defaults to dtype `"unknown"` on cpu.  The
`coverage_history` bookkeeping (driven by the optional `iteration`) is
elided: it records a float the claims never mention. -/
def DispatcherSpaceTC.record_hit (s : DispatcherSpaceTC) (api_name : String)
    (state_dict : Option (List (String × String))) : Bool × DispatcherSpaceTC :=
  let s0 := { s with total_record_calls := s.total_record_calls + 1 }
  let s1 := if (s0.api_dimensions.lookup api_name).isNone
            then s0.register_api api_name none else s0
  let sd := state_dict.getD [("dtype", "unknown"), ("device", "cpu")]
  let dims := (s1.api_dimensions.lookup api_name).getD []
  let state_key : Finset (String × String) := (filteredState dims sd).toFinset
  let is_new := state_key ∉ dictGetD s1.api_hits api_name ∅
  if is_new then
    (true, { s1 with
      api_hits := dictSet s1.api_hits api_name
        (insert state_key (dictGetD s1.api_hits api_name ∅)),
      total_unique_hits := s1.total_unique_hits + 1 })
  else (false, s1)

/-- tc `get_coverage(api_name) -> (numerator, denominator, percentage)`;
the float percentage is modelled exactly in `ℚ`. -/
def DispatcherSpaceTC.get_coverage (s : DispatcherSpaceTC) (api_name : String) :
    Nat × Nat × ℚ :=
  match s.api_dimensions.lookup api_name with
  | none => (0, 0, 0)
  | some _ =>
    let numerator := (dictGetD s.api_hits api_name ∅).card
    let denominator := dictGetD s.api_denominator api_name 0
    (numerator, denominator,
      if denominator > 0 then (numerator : ℚ) / (denominator : ℚ) * 100 else 0)

/- ====================================================================
EnhancedFuzzer.run_fuzzing_loop (benchmark_full_oracle.py, lines 1300-1612):
the iteration / checkpoint / guard skeleton.  The candidate pipeline
(generator, ε-greedy source selection, mutation, executor, oracles, bug
scanning and progress printing) consists of external collaborators or
bookkeeping no claim mentions; its observable effects enter as the
environment traces below.
==================================================================== -/

/-- Per-iteration environment: what the external collaborators feed the
loop.  `tokens i` is the kernel set captured by the executor at iteration
`i` (empty on execution failure), `candidate i` the candidate tested at
iteration `i`, `filtered i` the outlier filter's verdict (`true` skips the
iteration body via `continue`), `diskCritical i` the disk guard's
`is_critical` when consulted at the checkpoint boundary of iteration `i`. -/
structure FuzzLoopEnv (α : Type) where
  tokens : Nat → Finset String
  candidate : Nat → α
  filtered : Nat → Bool
  diskCritical : Nat → Bool

/-- The engine state the loop mutates, plus the checkpoint file system. -/
structure FuzzLoopState (α : Type) where
  coverage : EnhancedCoverageTracker
  corpus : EvolutionaryCorpus α
  manager : CheckpointManager
  fsys : String → Option (CheckpointData α)
  logger_iterations : Nat
  stopped_early : Option Nat

/-- One non-filtered iteration body up to (and without) the checkpoint
block: coverage update, then corpus admission when new kernels appeared. -/
def fuzzIterBody {α : Type} (env : FuzzLoopEnv α) (st : FuzzLoopState α)
    (i : Nat) : FuzzLoopState α :=
  let upd := st.coverage.update (env.tokens i) (i : Int)
  let new_count := upd.1.1
  let st1 := { st with coverage := upd.2 }
  if new_count > 0 then
    { st1 with corpus := st1.corpus.add_seed (env.candidate i) (env.tokens i) }
  else st1

/-- The checkpoint block head: save the engine state to the checkpoint file
(the per-iteration body has already run). -/
def fuzzSaveStep {α : Type} (env : FuzzLoopEnv α) (st : FuzzLoopState α)
    (i : Nat) : FuzzLoopState α :=
  let st2 := fuzzIterBody env st i
  { st2 with
    fsys := (st2.manager.save st2.fsys (i : Int) st2.coverage.all_kernels
      (some st2.corpus.corpus) st2.logger_iterations).2 }

/-- The `for i in range(start, max)` loop of `run_fuzzing_loop`, recursing on
the remaining iteration count `n`.  At a `(i+1) % checkpoint_interval == 0`
boundary the state is saved first; then the disk guard is consulted and a
critical verdict breaks out of the loop (the only `break` in the loop). -/
def runFuzzCore {α : Type} (env : FuzzLoopEnv α) (ckint : Nat) :
    Nat → Nat → FuzzLoopState α → FuzzLoopState α
  | _, 0, st => st
  | i, n + 1, st =>
    if env.filtered i then runFuzzCore env ckint (i + 1) n st
    else if (i + 1) % ckint = 0 then
      if env.diskCritical i then { fuzzSaveStep env st i with stopped_early := some i }
      else runFuzzCore env ckint (i + 1) n (fuzzSaveStep env st i)
    else runFuzzCore env ckint (i + 1) n (fuzzIterBody env st i)

/-- `run_fuzzing_loop` from `start_iteration` to `max_iterations`: the loop,
then the unconditional completion cleanup `checkpoint_manager.clear()`. -/
def runFuzzLoop {α : Type} (env : FuzzLoopEnv α) (ckint : Nat)
    (start_iteration max_iterations : Nat) (st : FuzzLoopState α) :
    FuzzLoopState α :=
  let final := runFuzzCore env ckint start_iteration (max_iterations - start_iteration) st
  { final with fsys := final.manager.clear final.fsys }

/- ====================================================================
Helper lemmas.
==================================================================== -/

theorem lookup_dictSet_self {β : Type} (l : List (String × β)) (k : String) (v : β) :
    (dictSet l k v).lookup k = some v := by
  induction l with
  | nil => simp [dictSet, List.lookup]
  | cons p rest ih =>
    rcases p with ⟨k0, v0⟩
    by_cases h : k0 = k
    · subst h
      simp [dictSet, List.lookup]
    · have hb : (k == k0) = false := beq_eq_false_iff_ne.mpr (Ne.symm h)
      simp only [dictSet, if_neg h, List.lookup, hb]
      exact ih

theorem lookup_dictSet_ne {β : Type} (l : List (String × β)) (k k2 : String) (v : β)
    (h : k ≠ k2) : (dictSet l k v).lookup k2 = l.lookup k2 := by
  have hb : (k2 == k) = false := beq_eq_false_iff_ne.mpr (Ne.symm h)
  induction l with
  | nil => simp [dictSet, List.lookup, hb]
  | cons p rest ih =>
    rcases p with ⟨k0, v0⟩
    by_cases h0 : k0 = k
    · subst h0
      simp only [dictSet, if_pos rfl, List.lookup, hb]
    · simp only [dictSet, if_neg h0, List.lookup]
      cases hbb : (k2 == k0) with
      | true => simp
      | false => simpa using ih

theorem dictGetD_dictSet_self {β : Type} (l : List (String × β)) (k : String) (v d : β) :
    dictGetD (dictSet l k v) k d = v := by
  simp [dictGetD, lookup_dictSet_self]

theorem dictGetD_dictSet_ne {β : Type} (l : List (String × β)) (k k2 : String) (v d : β)
    (h : k ≠ k2) : dictGetD (dictSet l k v) k2 d = dictGetD l k2 d := by
  simp [dictGetD, lookup_dictSet_ne _ _ _ _ h]

/- ====================================================================
C10: select_parent on an empty corpus.
==================================================================== -/

/-- C10.  For every corpus (either variant) containing no stored seeds,
`select_parent` returns `None` for every random draw — it neither raises nor
fabricates a candidate; and on a non-empty corpus it returns a stored seed,
so `None` happens exactly on the empty corpus, which the caller must
handle. -/
theorem select_parent_none_on_empty :
    (∀ (α : Type) (c : EvolutionaryCorpus α) (r : Nat),
      c.corpus = [] → c.select_parent r = none) ∧
    (∀ (α : Type) (c : EvolutionaryCorpusTC α) (r : Nat),
      c.corpus = [] → c.select_parent r = none) ∧
    (∀ (α : Type) (c : EvolutionaryCorpus α) (r : Nat),
      c.corpus ≠ [] → ∃ x ∈ c.corpus, c.select_parent r = some x) := by
  refine ⟨?_, ?_, ?_⟩
  · intro α c r h
    simp [EvolutionaryCorpus.select_parent, h]
  · intro α c r h
    simp [EvolutionaryCorpusTC.select_parent, h]
  · intro α c r h
    have hne : c.corpus.isEmpty = false := by
      cases hc : c.corpus with
      | nil => exact absurd hc h
      | cons a l => simp
    have hlen : 0 < c.corpus.length := by
      cases hc : c.corpus with
      | nil => exact absurd hc h
      | cons a l => simp
    have hlt : r % c.corpus.length < c.corpus.length := Nat.mod_lt _ hlen
    refine ⟨c.corpus.get ⟨r % c.corpus.length, hlt⟩, List.get_mem c.corpus _ hlt, ?_⟩
    simp [EvolutionaryCorpus.select_parent, hne, List.get?_eq_get hlt]

/-- C10 witness: the fresh corpus is empty and yields `none`. -/
theorem select_parent_none_on_empty_witness :
    (EvolutionaryCorpus.mk0 Nat 100).select_parent 7 = none :=
  select_parent_none_on_empty.1 Nat (EvolutionaryCorpus.mk0 Nat 100) 7 rfl

/- ====================================================================
C8: checkpoint round-trip.
==================================================================== -/

/-- C8.  Saving the engine state and loading it on a fresh
`CheckpointManager` built from the same strategy and target identifiers
returns a bundle whose coverage token set, corpus seed list (same size and
order) and iteration are identical to what was saved. -/
theorem checkpoint_roundtrip (α : Type) (fs0 : String → Option (CheckpointData α))
    (strategy api_name : String) (iteration : Int) (kernels : Finset String)
    (seeds : List α) (lg : Nat) :
    ∃ d, (CheckpointManager.mk0 strategy api_name).load
        (((CheckpointManager.mk0 strategy api_name).save fs0 iteration kernels
          (some seeds) lg).2) = some d
      ∧ d.coverage_kernels = kernels ∧ d.corpus_seeds = some seeds
      ∧ d.iteration = iteration ∧ d.logger_iterations = lg := by
  refine ⟨⟨iteration, kernels, some seeds, lg, strategy, sanitizeApiName api_name⟩,
    ?_, rfl, rfl, rfl, rfl⟩
  simp [CheckpointManager.load, CheckpointManager.save, CheckpointManager.mk0]

/- ====================================================================
C7: corpus admission and FIFO eviction.
==================================================================== -/

theorem add_seed_max_size {α : Type} (c : EvolutionaryCorpus α) (a : α)
    (ks : Finset String) : (c.add_seed a ks).max_size = c.max_size := by
  simp only [EvolutionaryCorpus.add_seed]
  split_ifs <;> rfl

theorem add_seed_len_le {α : Type} (c : EvolutionaryCorpus α) (a : α)
    (ks : Finset String) (h : c.corpus.length ≤ c.max_size) :
    (c.add_seed a ks).corpus.length ≤ c.max_size := by
  simp only [EvolutionaryCorpus.add_seed]
  split_ifs with h1 h2
  · exact h
  · simp only [List.length_tail, List.length_append, List.length_singleton]
    omega
  · simp only [List.length_append, List.length_singleton] at h2 ⊢
    omega

theorem corpus_fold_max {α : Type} (M : Nat) (seeds : List (α × Finset String)) :
    (seeds.foldl (fun c p => c.add_seed p.1 p.2) (EvolutionaryCorpus.mk0 α M)).max_size = M := by
  induction seeds using List.reverseRecOn with
  | nil => rfl
  | append_singleton l q ih =>
    rw [List.foldl_append]
    simp only [List.foldl_cons, List.foldl_nil]
    rw [add_seed_max_size]
    exact ih

theorem corpus_fold_fifo {α : Type} (M : Nat) :
    ∀ (seeds : List (α × Finset String)), (∀ p ∈ seeds, p.2.card ≠ 0) →
    (seeds.foldl (fun c p => c.add_seed p.1 p.2) (EvolutionaryCorpus.mk0 α M)).corpus
      = (seeds.map Prod.fst).drop (seeds.length - M) := by
  intro seeds
  induction seeds using List.reverseRecOn with
  | nil => intro _; simp [EvolutionaryCorpus.mk0]
  | append_singleton l p ih =>
    intro hall
    have hl : ∀ q ∈ l, q.2.card ≠ 0 := fun q hq => hall q (by simp [hq])
    have hp : p.2.card ≠ 0 := hall p (by simp)
    rw [List.foldl_append]
    simp only [List.foldl_cons, List.foldl_nil]
    set c0 := l.foldl (fun c p => c.add_seed p.1 p.2) (EvolutionaryCorpus.mk0 α M) with hc0
    have hmax : c0.max_size = M := corpus_fold_max M l
    have hcorp := ih hl
    have hstep : (c0.add_seed p.1 p.2).corpus =
        if (c0.corpus ++ [p.1]).length > c0.max_size
        then (c0.corpus ++ [p.1]).tail else c0.corpus ++ [p.1] := by
      simp only [EvolutionaryCorpus.add_seed, if_neg hp]
      split_ifs <;> rfl
    rw [hstep]
    set n := l.length with hn
    have hcl : c0.corpus.length = n - (n - M) := by
      rw [hcorp]
      simp
    by_cases hcase : n < M
    · have h0 : n - M = 0 := by omega
      have hcond : ¬((c0.corpus ++ [p.1]).length > c0.max_size) := by
        simp only [List.length_append, List.length_cons, List.length_nil, hmax, hcl]
        omega
      rw [if_neg hcond, hcorp, h0, List.drop_zero]
      have h1 : (l ++ [p]).length - M = 0 := by simp; omega
      rw [h1, List.drop_zero]
      simp
    · by_cases hM : M = 0
      · subst hM
        have h2 : c0.corpus = [] := by
          rw [hcorp]
          apply List.drop_eq_nil_of_le
          simp
        have hcond : (c0.corpus ++ [p.1]).length > c0.max_size := by
          simp [h2, hmax]
        rw [if_pos hcond, h2]
        simp only [List.nil_append, List.tail_cons]
        rw [List.drop_eq_nil_of_le (by simp)]
      · have hMpos : 0 < M := by omega
        have hclM : c0.corpus.length = M := by omega
        have hcond : (c0.corpus ++ [p.1]).length > c0.max_size := by
          simp only [List.length_append, List.length_cons, List.length_nil, hmax]
          omega
        rw [if_pos hcond]
        have hne2 : c0.corpus ≠ [] := by
          intro hnil
          rw [hnil] at hclM
          simp at hclM
          omega
        have htail : (c0.corpus ++ [p.1]).tail = c0.corpus.tail ++ [p.1] := by
          cases hcc : c0.corpus with
          | nil => exact absurd hcc hne2
          | cons x xs => simp
        rw [htail, hcorp, List.tail_drop]
        have hlast : (l ++ [p]).length - M = (n - M) + 1 := by
          simp only [List.length_append, List.length_cons, List.length_nil]
          omega
        rw [hlast, List.map_append]
        rw [List.drop_append_of_le_length (by simp; omega)]
        simp

theorem corpus_fold_len_le {α : Type} (c : EvolutionaryCorpus α)
    (seeds : List (α × Finset String)) (h : c.corpus.length ≤ c.max_size) :
    (seeds.foldl (fun c p => c.add_seed p.1 p.2) c).corpus.length
      ≤ (seeds.foldl (fun c p => c.add_seed p.1 p.2) c).max_size := by
  induction seeds generalizing c with
  | nil => exact h
  | cons p rest ih =>
    simp only [List.foldl_cons]
    exact ih _ (by rw [add_seed_max_size]; exact add_seed_len_le _ _ _ h)

/-- C7.  `add_seed` is a no-op on a zero discovered-token count; folding any
sequence of admissible seeds (discovered count ≥ 1) into a fresh corpus of
capacity `max_size` leaves exactly the last `max_size` admitted seeds in
admission order (strict FIFO eviction of the oldest); and the corpus size
never exceeds `max_size` along any sequence of additions. -/
theorem corpus_fifo_spec :
    (∀ (α : Type) (c : EvolutionaryCorpus α) (a : α) (ks : Finset String),
      ks.card = 0 → c.add_seed a ks = c) ∧
    (∀ (α : Type) (M : Nat) (seeds : List (α × Finset String)),
      (∀ p ∈ seeds, p.2.card ≠ 0) →
      (seeds.foldl (fun c p => c.add_seed p.1 p.2) (EvolutionaryCorpus.mk0 α M)).corpus
        = (seeds.map Prod.fst).drop (seeds.length - M)) ∧
    (∀ (α : Type) (M : Nat) (seeds : List (α × Finset String)),
      (seeds.foldl (fun c p => c.add_seed p.1 p.2)
        (EvolutionaryCorpus.mk0 α M)).corpus.length ≤ M) := by
  refine ⟨?_, ?_, ?_⟩
  · intro α c a ks h
    simp [EvolutionaryCorpus.add_seed, h]
  · intro α M seeds h
    exact corpus_fold_fifo M seeds h
  · intro α M seeds
    have h := corpus_fold_len_le (EvolutionaryCorpus.mk0 α M) seeds (by simp [EvolutionaryCorpus.mk0])
    have hm := corpus_fold_max M seeds
    rw [hm] at h
    exact h

/- ====================================================================
C1: coverage tracker totals.
==================================================================== -/

theorem update_all_kernels (t : EnhancedCoverageTracker) (ks : Finset String) (it : Int) :
    ((t.update ks it).2).all_kernels = t.all_kernels ∪ ks := by
  simp only [EnhancedCoverageTracker.update]
  by_cases h : ks \ t.all_kernels = ∅
  · have hsub : ks ⊆ t.all_kernels := Finset.sdiff_eq_empty_iff_subset.mp h
    have hu : t.all_kernels ∪ ks = t.all_kernels := Finset.union_eq_left.mpr hsub
    rw [if_pos h]
    cases t.saturation_detector <;> simp [hu]
  · rw [if_neg h]
    cases t.saturation_detector <;> simp [Finset.union_sdiff_self_eq_union]

theorem runUpdates_all_kernels (inputs : List (Finset String × Int))
    (t : EnhancedCoverageTracker) :
    (t.runUpdates inputs).all_kernels
      = inputs.foldl (fun a p => a ∪ p.1) t.all_kernels := by
  induction inputs generalizing t with
  | nil => rfl
  | cons p rest ih =>
    rcases p with ⟨ks, it⟩
    simp only [EnhancedCoverageTracker.runUpdates, List.foldl_cons]
    rw [ih, update_all_kernels]

theorem foldl_union_start (inputs : List (Finset String × Int)) (s : Finset String) :
    inputs.foldl (fun a p => a ∪ p.1) s
      = s ∪ inputs.foldl (fun a p => a ∪ p.1) ∅ := by
  induction inputs generalizing s with
  | nil => simp
  | cons p rest ih =>
    simp only [List.foldl_cons]
    rw [ih (s ∪ p.1), ih (∅ ∪ p.1)]
    simp [Finset.union_assoc]

/-- C1.  Fed any sequence of token sets, the tracker's `get_total` after each
call equals the cardinality of the union of all token sets passed so far, and
the total is non-decreasing from any call to any later one (no token is ever
removed). -/
theorem coverage_total_union_monotone (name : String) (en : Bool)
    (inputs : List (Finset String × Int)) (n m : Nat) (hnm : n ≤ m) :
    ((EnhancedCoverageTracker.mk0 name en).runUpdates (inputs.take n)).get_total
        = ((inputs.take n).foldl
            (fun (a : Finset String) (p : Finset String × Int) => a ∪ p.1) ∅).card
      ∧ ((EnhancedCoverageTracker.mk0 name en).runUpdates (inputs.take n)).get_total
        ≤ ((EnhancedCoverageTracker.mk0 name en).runUpdates (inputs.take m)).get_total := by
  have hk : ∀ j : Nat, ((EnhancedCoverageTracker.mk0 name en).runUpdates
      (inputs.take j)).all_kernels = (inputs.take j).foldl
        (fun (a : Finset String) (p : Finset String × Int) => a ∪ p.1) ∅ := by
    intro j
    rw [runUpdates_all_kernels]
    rfl
  constructor
  · rw [EnhancedCoverageTracker.get_total, hk]
  · rw [EnhancedCoverageTracker.get_total, EnhancedCoverageTracker.get_total, hk, hk]
    apply Finset.card_le_card
    have hsplit : inputs.take m = inputs.take n ++ ((inputs.drop n).take (m - n)) := by
      rw [show m = n + (m - n) by omega, List.take_add]
      simp
    rw [hsplit, List.foldl_append,
      foldl_union_start ((inputs.drop n).take (m - n))]
    exact Finset.subset_union_left

/-- C1 witness: a concrete three-call run with an overlapping token set. -/
theorem coverage_total_union_monotone_witness :
    ((EnhancedCoverageTracker.mk0 "t" false).runUpdates
      ([(({"a", "b"} : Finset String), (0 : Int)), ({"b", "c"}, 1), (∅, 2)].take 2)).get_total
      = (([(({"a", "b"} : Finset String), (0 : Int)), ({"b", "c"}, 1), (∅, 2)].take 2).foldl
          (fun (a : Finset String) (p : Finset String × Int) => a ∪ p.1) ∅).card := by
  have h := coverage_total_union_monotone "t" false
    [(({"a", "b"} : Finset String), (0 : Int)), ({"b", "c"}, 1), (∅, 2)] 2 3 (by omega)
  exact h.1

/- ====================================================================
C2: the saturation two-state machine.
==================================================================== -/

theorem periodicCheck_state (s : AdaptiveSaturationDetector) (it : Int) :
    ((s.periodicCheck it)).2.last_kernel_count = s.last_kernel_count
    ∧ ((s.periodicCheck it)).2.no_discovery_count = s.no_discovery_count
    ∧ ((s.periodicCheck it)).2.patience = s.patience
    ∧ ((s.periodicCheck it)).2.expansion_mode
        = (s.expansion_mode || ((s.periodicCheck it)).1.1) := by
  simp only [AdaptiveSaturationDetector.periodicCheck]
  split_ifs with h1 h2
  · rcases h2 with ⟨h2a, h2b⟩
    simp [h2b]
  · simp
  · simp

theorem periodicCheck_fired (s : AdaptiveSaturationDetector) (it : Int)
    (h : ((s.periodicCheck it)).1.1 = true) :
    s.no_discovery_count ≥ s.patience ∧ s.expansion_mode = false
      ∧ it - s.last_check_iteration ≥ s.check_interval := by
  revert h
  simp only [AdaptiveSaturationDetector.periodicCheck]
  split_ifs with h1 h2
  · intro _
    exact ⟨h2.1, h2.2, h1⟩
  · intro hx
    simp at hx
  · intro hx
    simp at hx

theorem update_no_growth (s : AdaptiveSaturationDetector) (c : Nat) (it : Int)
    (h : ¬(c > s.last_kernel_count)) :
    s.update c it
      = ({ s with no_discovery_count := s.no_discovery_count + 1 }).periodicCheck it := by
  simp only [AdaptiveSaturationDetector.update, if_neg h]

theorem update_growth_exp (s : AdaptiveSaturationDetector) (c : Nat) (it : Int)
    (h : c > s.last_kernel_count) (he : s.expansion_mode = true) :
    s.update c it = ((false, "New kernels found! Returning to normal mode"),
      { s with no_discovery_count := 0, last_kernel_count := c,
               expansion_mode := false }) := by
  simp only [AdaptiveSaturationDetector.update, if_pos h, he]
  simp

theorem update_growth_norm (s : AdaptiveSaturationDetector) (c : Nat) (it : Int)
    (h : c > s.last_kernel_count) (he : s.expansion_mode = false) :
    s.update c it
      = ({ s with no_discovery_count := 0,
                  last_kernel_count := c }).periodicCheck it := by
  simp only [AdaptiveSaturationDetector.update, if_pos h, he]
  simp

theorem run_expansion_zero (inputs : List (Nat × Int)) :
    ∀ (s : AdaptiveSaturationDetector), s.expansion_mode = true →
    (∀ p ∈ inputs, p.1 ≤ s.last_kernel_count) →
    ((s.run inputs).1).count true = 0 := by
  induction inputs with
  | nil => intro s _ _; rfl
  | cons p rest ih =>
    intro s he hall
    rcases p with ⟨c, it⟩
    have hng : ¬(c > s.last_kernel_count) := by
      have := hall (c, it) (by simp)
      omega
    simp only [AdaptiveSaturationDetector.run]
    rw [update_no_growth s c it hng]
    have hst := periodicCheck_state
      { s with no_discovery_count := s.no_discovery_count + 1 } it
    set r := ({ s with
      no_discovery_count := s.no_discovery_count + 1 }).periodicCheck it with hr
    have hf : r.1.1 = false := by
      cases hcc : r.1.1
      · rfl
      · have hx := periodicCheck_fired _ it hcc
        have hcontra : s.expansion_mode = false := hx.2.1
        rw [hcontra] at he
        exact absurd he (by simp)
    have hpost : r.2.expansion_mode = true := by
      rw [hst.2.2.2, hf]
      have hx : ({ s with
        no_discovery_count := s.no_discovery_count + 1 }).expansion_mode = true := he
      rw [hx]
      rfl
    have hrest : ∀ q ∈ rest, q.1 ≤ r.2.last_kernel_count := by
      intro q hq
      rw [hst.1]
      exact hall q (by simp [hq])
    have h0 := ih r.2 hpost hrest
    simp [List.count_cons, hf, h0]

theorem run_zero_growth_trues (inputs : List (Nat × Int)) :
    ∀ (s : AdaptiveSaturationDetector), s.expansion_mode = false →
    (∀ p ∈ inputs, p.1 ≤ s.last_kernel_count) →
    ((s.run inputs).1).count true ≤ 1 := by
  induction inputs with
  | nil => intro s _ _; simp [AdaptiveSaturationDetector.run]
  | cons p rest ih =>
    intro s he hall
    rcases p with ⟨c, it⟩
    have hng : ¬(c > s.last_kernel_count) := by
      have := hall (c, it) (by simp)
      omega
    simp only [AdaptiveSaturationDetector.run]
    rw [update_no_growth s c it hng]
    have hst := periodicCheck_state
      { s with no_discovery_count := s.no_discovery_count + 1 } it
    set r := ({ s with
      no_discovery_count := s.no_discovery_count + 1 }).periodicCheck it with hr
    have hrest : ∀ q ∈ rest, q.1 ≤ r.2.last_kernel_count := by
      intro q hq
      rw [hst.1]
      exact hall q (by simp [hq])
    cases hf : r.1.1 with
    | true =>
      have hpost : r.2.expansion_mode = true := by
        rw [hst.2.2.2, hf]
        simp
      have h0 := run_expansion_zero rest r.2 hpost hrest
      simp [List.count_cons, hf, h0]
    | false =>
      have hpost : r.2.expansion_mode = false := by
        rw [hst.2.2.2, hf]
        have hx : ({ s with
          no_discovery_count := s.no_discovery_count + 1 }).expansion_mode = false := he
        rw [hx]
        rfl
      have h0 := ih r.2 hpost hrest
      simp only [List.count_cons, hf]
      simpa using h0

/-- C2.  The saturation detector: `should_expand` can only fire at an
interval boundary, from Normal, with stagnation at least `patience` (entry is
throttled); a no-growth update while in Expansion never fires again; one
growth update while in Expansion returns to Normal immediately, whether or
not a boundary was reached; along any zero-growth call sequence the signal
fires at most once; and with the source defaults (`patience = 500`,
`check_interval = 100`), 500 consecutive zero-growth iterations from a fresh
detector fire it exactly once. -/
theorem saturation_detector_spec :
    (∀ (s : AdaptiveSaturationDetector) (c : Nat) (it : Int),
      ((s.update c it).1).1 = true →
        s.expansion_mode = false
        ∧ it - s.last_check_iteration ≥ s.check_interval
        ∧ ((s.update c it).2).expansion_mode = true
        ∧ ((s.update c it).2).no_discovery_count ≥ s.patience) ∧
    (∀ (s : AdaptiveSaturationDetector) (c : Nat) (it : Int),
      s.expansion_mode = true → c ≤ s.last_kernel_count →
        ((s.update c it).1).1 = false ∧ ((s.update c it).2).expansion_mode = true) ∧
    (∀ (s : AdaptiveSaturationDetector) (c : Nat) (it : Int),
      s.expansion_mode = true → c > s.last_kernel_count →
        ((s.update c it).1).1 = false ∧ ((s.update c it).2).expansion_mode = false) ∧
    (∀ (s : AdaptiveSaturationDetector) (inputs : List (Nat × Int)),
      s.expansion_mode = false → (∀ p ∈ inputs, p.1 ≤ s.last_kernel_count) →
        ((s.run inputs).1).count true ≤ 1) ∧
    (((AdaptiveSaturationDetector.mk0 500 100).run
        ((List.range 500).map (fun k => (0, (k + 1 : Int))))).1).count true = 1 := by
  refine ⟨?_, ?_, ?_, ?_, ?_⟩
  · intro s c it hfire
    by_cases hg : c > s.last_kernel_count
    · by_cases he : s.expansion_mode = true
      · rw [update_growth_exp s c it hg he] at hfire
        simp at hfire
      · have he0 : s.expansion_mode = false := by
          cases hcc : s.expansion_mode
          · rfl
          · exact absurd hcc he
        rw [update_growth_norm s c it hg he0] at hfire ⊢
        have hfired := periodicCheck_fired _ it hfire
        have hst := periodicCheck_state { s with
          no_discovery_count := 0
          last_kernel_count := c } it
        refine ⟨he0, hfired.2.2, ?_, ?_⟩
        · rw [hst.2.2.2, hfire]
          simp
        · rw [hst.2.1]
          exact hfired.1
    · rw [update_no_growth s c it hg] at hfire ⊢
      have hfired := periodicCheck_fired _ it hfire
      have hst := periodicCheck_state { s with
        no_discovery_count := s.no_discovery_count + 1 } it
      refine ⟨hfired.2.1, hfired.2.2, ?_, ?_⟩
      · rw [hst.2.2.2, hfire]
        simp
      · rw [hst.2.1]
        exact le_trans hfired.1 (by simp)
  · intro s c it he hng
    have hg : ¬(c > s.last_kernel_count) := by omega
    rw [update_no_growth s c it hg]
    have hst := periodicCheck_state { s with
      no_discovery_count := s.no_discovery_count + 1 } it
    constructor
    · cases hcc : (({ s with no_discovery_count := s.no_discovery_count + 1
        }).periodicCheck it).1.1
      · rfl
      · have := periodicCheck_fired _ it hcc
        have hx : ({ s with no_discovery_count := s.no_discovery_count + 1
          }).expansion_mode = true := he
        rw [this.2.1] at hx
        simp at hx
    · rw [hst.2.2.2]
      have hx : ({ s with no_discovery_count := s.no_discovery_count + 1
        }).expansion_mode = true := he
      rw [hx]
      simp
  · intro s c it he hg
    rw [update_growth_exp s c it hg he]
    exact ⟨rfl, rfl⟩
  · intro s inputs hnorm hall
    exact run_zero_growth_trues inputs s hnorm hall
  · decide

/-- C2 witness: a concrete Expansion-state detector exits to Normal on one
growth update, off-boundary. -/
theorem saturation_detector_spec_witness :
    ((⟨500, 100, 7, 3, 0, true, 1⟩ : AdaptiveSaturationDetector).expansion_mode = true
      ∧ 4 > (⟨500, 100, 7, 3, 0, true, 1⟩ : AdaptiveSaturationDetector).last_kernel_count)
    ∧ (((⟨500, 100, 7, 3, 0, true, 1⟩ : AdaptiveSaturationDetector).update 4 42).1).1 = false
    ∧ (((⟨500, 100, 7, 3, 0, true, 1⟩ : AdaptiveSaturationDetector).update 4 42).2).expansion_mode
        = false := by
  refine ⟨⟨rfl, by decide⟩, ?_⟩
  exact saturation_detector_spec.2.2.1 ⟨500, 100, 7, 3, 0, true, 1⟩ 4 42 rfl (by decide)

/- ====================================================================
C3 / C4: the combinatorial coverage space.
==================================================================== -/

/-- The state a tc `record_hit` call works on after counting the call and
auto-registering an unknown api. -/
def tcRegistered (s : DispatcherSpaceTC) (name : String) : DispatcherSpaceTC :=
  let s0 : DispatcherSpaceTC := { s with total_record_calls := s.total_record_calls + 1 }
  if (s0.api_dimensions.lookup name).isNone then s0.register_api name none else s0

theorem tc_record_hit_eq (s : DispatcherSpaceTC) (name : String) (sd : List (String × String)) :
    s.record_hit name (some sd)
      = (if (filteredState (((tcRegistered s name).api_dimensions.lookup name).getD []) sd).toFinset
            ∉ dictGetD (tcRegistered s name).api_hits name ∅
         then (true, { tcRegistered s name with
            api_hits := dictSet (tcRegistered s name).api_hits name
              (insert (filteredState
                  (((tcRegistered s name).api_dimensions.lookup name).getD []) sd).toFinset
                (dictGetD (tcRegistered s name).api_hits name ∅)),
            total_unique_hits := (tcRegistered s name).total_unique_hits + 1 })
         else (false, tcRegistered s name)) := rfl

theorem tcRegistered_lookup (s : DispatcherSpaceTC) (name : String) :
    ∃ dims0, (tcRegistered s name).api_dimensions.lookup name = some dims0 := by
  simp only [tcRegistered]
  split_ifs with h
  · exact ⟨DEFAULT_DIMENSIONS_TC,
      by simp [DispatcherSpaceTC.register_api, lookup_dictSet_self]⟩
  · cases hc : ({ s with total_record_calls := s.total_record_calls + 1
      } : DispatcherSpaceTC).api_dimensions.lookup name with
    | none =>
      rw [hc] at h
      simp at h
    | some dims => exact ⟨dims, rfl⟩

theorem tcRegistered_of_registered (t : DispatcherSpaceTC) (name : String)
    (h : (t.api_dimensions.lookup name).isNone = false) :
    tcRegistered t name = { t with total_record_calls := t.total_record_calls + 1 } := by
  simp only [tcRegistered]
  rw [if_neg]
  rw [show ({ t with total_record_calls := t.total_record_calls + 1
    } : DispatcherSpaceTC).api_dimensions = t.api_dimensions from rfl, h]
  simp

/-- After a tc `record_hit`, the observation's filtered state key is stored
in the hit set of the (registered) api. -/
theorem tc_record_mem_after (s : DispatcherSpaceTC) (name : String)
    (sd : List (String × String)) :
    ∃ dims, (((s.record_hit name (some sd)).2).api_dimensions.lookup name) = some dims
      ∧ (filteredState dims sd).toFinset
          ∈ dictGetD (((s.record_hit name (some sd)).2).api_hits) name ∅ := by
  obtain ⟨dims0, hdims⟩ := tcRegistered_lookup s name
  rw [tc_record_hit_eq]
  by_cases hnew : (filteredState
      (((tcRegistered s name).api_dimensions.lookup name).getD []) sd).toFinset
      ∉ dictGetD (tcRegistered s name).api_hits name ∅
  · rw [if_pos hnew]
    refine ⟨dims0, hdims, ?_⟩
    rw [show ({ tcRegistered s name with
        api_hits := dictSet (tcRegistered s name).api_hits name
          (insert (filteredState
              (((tcRegistered s name).api_dimensions.lookup name).getD []) sd).toFinset
            (dictGetD (tcRegistered s name).api_hits name ∅)),
        total_unique_hits := (tcRegistered s name).total_unique_hits + 1
        } : DispatcherSpaceTC).api_hits
      = dictSet (tcRegistered s name).api_hits name
          (insert (filteredState
              (((tcRegistered s name).api_dimensions.lookup name).getD []) sd).toFinset
            (dictGetD (tcRegistered s name).api_hits name ∅)) from rfl]
    rw [dictGetD_dictSet_self]
    rw [hdims]
    exact Finset.mem_insert_self _ _
  · rw [if_neg hnew]
    have hmem := not_not.mp hnew
    refine ⟨dims0, hdims, ?_⟩
    rw [hdims] at hmem
    exact hmem

/-- Recording the same tc observation a second time returns `is_new = false`. -/
theorem tc_record_second (s : DispatcherSpaceTC) (name : String)
    (sd : List (String × String)) :
    (((s.record_hit name (some sd)).2).record_hit name (some sd)).1 = false := by
  obtain ⟨dims0, hdims, hmem⟩ := tc_record_mem_after s name sd
  rw [tc_record_hit_eq ((s.record_hit name (some sd)).2) name sd]
  have hnn : ((((s.record_hit name (some sd)).2)).api_dimensions.lookup name).isNone
      = false := by
    rw [hdims]
    rfl
  rw [tcRegistered_of_registered ((s.record_hit name (some sd)).2) name hnn]
  have hlook : (({ (s.record_hit name (some sd)).2 with
      total_record_calls := ((s.record_hit name (some sd)).2).total_record_calls + 1
      } : DispatcherSpaceTC).api_dimensions.lookup name) = some dims0 := hdims
  rw [hlook]
  have hcond : ¬((filteredState ((some dims0).getD []) sd).toFinset
      ∉ dictGetD ({ (s.record_hit name (some sd)).2 with
        total_record_calls := ((s.record_hit name (some sd)).2).total_record_calls + 1
        } : DispatcherSpaceTC).api_hits name ∅) := by
    simp only [Option.getD_some]
    exact not_not_intro hmem
  rw [if_neg hcond]

theorem record_hit_cases (md5h : String → String) (t : DispatcherSpace)
    (name : String) (api : TorchAPI) (cuda : Bool)
    (hnn : (t.api_dimensions.lookup name).isNone = false) :
    t.record_hit md5h name api cuda
      = (if t.total_records ≥ t.max_hits then
          (false, { t with overflow_warnings := t.overflow_warnings + 1 })
        else if (("dev=" ++ (if cuda then "cuda" else "cpu")) ::
            (pySorted (dtypesFound api)).map (fun d => "d=" ++ d)).length ≤ 1 then
          (false, t)
        else if md5h (String.intercalate "|"
            (pySorted (("dev=" ++ (if cuda then "cuda" else "cpu")) ::
              (pySorted (dtypesFound api)).map (fun d => "d=" ++ d))))
            ∉ dictGetD t.hits name ∅ then
          (true, { t with
            hits := dictSet t.hits name
              (insert (md5h (String.intercalate "|"
                (pySorted (("dev=" ++ (if cuda then "cuda" else "cpu")) ::
                  (pySorted (dtypesFound api)).map (fun d => "d=" ++ d)))))
                (dictGetD t.hits name ∅)),
            total_records := t.total_records + 1 })
        else (false, t)) := by
  simp only [DispatcherSpace.record_hit, hnn]
  simp

theorem record_hit_dims_stable (md5h : String → String) (t : DispatcherSpace)
    (name : String) (api : TorchAPI) (cuda : Bool)
    (hnn : (t.api_dimensions.lookup name).isNone = false) :
    ((t.record_hit md5h name api cuda).2).api_dimensions = t.api_dimensions
    ∧ ((t.record_hit md5h name api cuda).2).max_hits = t.max_hits := by
  rw [record_hit_cases md5h t name api cuda hnn]
  split_ifs <;> exact ⟨rfl, rfl⟩

/-- The state any `record_hit` call works on: the input state, registered. -/
theorem record_hit_registered (md5h : String → String) (s : DispatcherSpace)
    (name : String) (api : TorchAPI) (cuda : Bool) :
    s.record_hit md5h name api cuda
      = (if (s.api_dimensions.lookup name).isNone
         then s.register_api name none else s).record_hit md5h name api cuda := by
  by_cases h : (s.api_dimensions.lookup name).isNone
  · rw [if_pos h]
    have hreg : ((s.register_api name none).api_dimensions.lookup name).isNone = false := by
      simp [DispatcherSpace.register_api, lookup_dictSet_self]
    simp only [DispatcherSpace.record_hit, h, hreg]
    simp
  · rw [if_neg h]

/-- C3 counterexample: with axes of domain sizes 2 and 3 (denominator 6),
seven observations with seven distinct dtypes drive the stored hit count to
7, so `get_coverage` returns 7/6 — strictly above 1, falsifying the claimed
`coverage ∈ [0, 1]` bound.  (The md5 fingerprint is instantiated with the
identity, injective on these seven state strings as md5 is.) -/
theorem dispatcher_coverage_cex :
    (["ta", "tb", "tc", "td", "te", "tf", "tg"].foldl
      (fun s d => (s.record_hit id "f"
        ⟨[("x", some ⟨some d, none, none⟩)]⟩ false).2)
      ((DispatcherSpace.mk0 50000).register_api "f"
        (some [("a", ["x", "y"]), ("b", ["u", "v", "w"])]))).get_coverage "f" > 1 := by
  have hth : ((["ta", "tb", "tc", "td", "te", "tf", "tg"].foldl
      (fun s d => (s.record_hit id "f"
        ⟨[("x", some ⟨some d, none, none⟩)]⟩ false).2)
      ((DispatcherSpace.mk0 50000).register_api "f"
        (some [("a", ["x", "y"]), ("b", ["u", "v", "w"])]))).theoretical_sizes.lookup "f")
      = some 6 := by decide
  have hhits : (dictGetD ((["ta", "tb", "tc", "td", "te", "tf", "tg"].foldl
      (fun s d => (s.record_hit id "f"
        ⟨[("x", some ⟨some d, none, none⟩)]⟩ false).2)
      ((DispatcherSpace.mk0 50000).register_api "f"
        (some [("a", ["x", "y"]), ("b", ["u", "v", "w"])]))).hits) "f" ∅).card = 7 := by
    decide
  simp only [DispatcherSpace.get_coverage, hth, hhits]
  norm_num

/-- C3 (amended).  The denominator is fixed at registration as the product of
the registered domain sizes (both variants); recording the same observation
twice returns `is_new = false` the second time and never adds a second hit;
and the coverage fraction is never negative — but it is not bounded by 1
(see the counterexample): recorded states range outside the registered
product, so the numerator can exceed the denominator. -/
theorem dispatcher_coverage_amended :
    (∀ (s : DispatcherSpace) (name : String) (dims : List (String × List String)),
      ((s.register_api name (some dims)).theoretical_sizes.lookup name)
        = some ((dims.map (fun d => d.2.length)).prod)) ∧
    (∀ (md5h : String → String) (s : DispatcherSpace) (name : String)
        (api : TorchAPI) (cuda : Bool),
      (((s.record_hit md5h name api cuda).2).record_hit md5h name api cuda).1 = false
      ∧ dictGetD ((((s.record_hit md5h name api cuda).2).record_hit md5h name api cuda).2).hits name ∅
        = dictGetD ((s.record_hit md5h name api cuda).2).hits name ∅) ∧
    (∀ (s : DispatcherSpace) (name : String), 0 ≤ s.get_coverage name) ∧
    (∀ (s : DispatcherSpaceTC) (name : String) (dims : List (String × List String)),
      ((s.register_api name (some dims)).api_denominator.lookup name)
        = some ((dims.map (fun d => d.2.length)).prod)) ∧
    (∀ (s : DispatcherSpaceTC) (name : String) (sd : List (String × String)),
      (((s.record_hit name (some sd)).2).record_hit name (some sd)).1 = false) := by
  refine ⟨?_, ?_, ?_, ?_, ?_⟩
  · intro s name dims
    simp [DispatcherSpace.register_api, lookup_dictSet_self]
  · intro md5h s name api cuda
    rw [record_hit_registered md5h s name api cuda]
    set t := if (s.api_dimensions.lookup name).isNone
      then s.register_api name none else s with ht
    have hnn : (t.api_dimensions.lookup name).isNone = false := by
      rw [ht]
      split_ifs with h
      · simp [DispatcherSpace.register_api, lookup_dictSet_self]
      · cases hc : s.api_dimensions.lookup name
        · rw [hc] at h
          simp at h
        · simp
    rw [record_hit_cases md5h t name api cuda hnn]
    by_cases h1 : t.total_records ≥ t.max_hits
    · rw [if_pos h1]
      set t2 : DispatcherSpace := { t with overflow_warnings := t.overflow_warnings + 1 }
      have hnn2 : (t2.api_dimensions.lookup name).isNone = false := hnn
      rw [record_hit_cases md5h t2 name api cuda hnn2]
      rw [if_pos (show t2.total_records ≥ t2.max_hits from h1)]
      exact ⟨rfl, rfl⟩
    · rw [if_neg h1]
      by_cases h2 : (("dev=" ++ if cuda then "cuda" else "cpu") ::
          (pySorted (dtypesFound api)).map (fun d => "d=" ++ d)).length ≤ 1
      · rw [if_pos h2]
        rw [record_hit_cases md5h t name api cuda hnn]
        rw [if_neg h1, if_pos h2]
        exact ⟨rfl, rfl⟩
      · rw [if_neg h2]
        set hsh := md5h (String.intercalate "|"
          (pySorted (("dev=" ++ if cuda then "cuda" else "cpu") ::
            (pySorted (dtypesFound api)).map (fun d => "d=" ++ d))))
        by_cases h3 : hsh ∉ dictGetD t.hits name ∅
        · rw [if_pos h3]
          set t3 : DispatcherSpace := { t with
            hits := dictSet t.hits name (insert hsh (dictGetD t.hits name ∅)),
            total_records := t.total_records + 1 } with ht3
          have hnn3 : (t3.api_dimensions.lookup name).isNone = false := hnn
          rw [record_hit_cases md5h t3 name api cuda hnn3]
          by_cases h4 : t3.total_records ≥ t3.max_hits
          · rw [if_pos h4]
            exact ⟨rfl, rfl⟩
          · rw [if_neg h4, if_neg h2]
            have hmem : ¬(hsh ∉ dictGetD t3.hits name ∅) := by
              show ¬(hsh ∉ dictGetD (dictSet t.hits name
                (insert hsh (dictGetD t.hits name ∅))) name ∅)
              rw [dictGetD_dictSet_self]
              simp
            rw [if_neg hmem]
            constructor
            · rfl
            · rfl
        · rw [if_neg h3]
          rw [record_hit_cases md5h t name api cuda hnn]
          rw [if_neg h1, if_neg h2, if_neg h3]
          exact ⟨rfl, rfl⟩
  · intro s name
    simp only [DispatcherSpace.get_coverage]
    cases s.theoretical_sizes.lookup name with
    | none => simp
    | some th =>
      simp only []
      split_ifs with h
      · positivity
      · simp
  · intro s name dims
    simp [DispatcherSpaceTC.register_api, lookup_dictSet_self]
  · intro s name sd
    exact tc_record_second s name sd

/-- C4 counterexample: in the oracle variant, an observation carrying no
extractable dtype is rejected outright — `record_hit` returns `False` and
stores nothing, instead of substituting a sentinel and recording. -/
theorem record_hit_reject_cex :
    ((((DispatcherSpace.mk0 50000).register_api "f" none).record_hit id "f"
        ⟨[("x", some ⟨none, none, none⟩)]⟩ false).1 = false)
    ∧ dictGetD ((((DispatcherSpace.mk0 50000).register_api "f" none).record_hit id "f"
        ⟨[("x", some ⟨none, none, none⟩)]⟩ false).2).hits "f" ∅ = ∅ := by
  decide

/-- C4 (amended).  The sentinel behaviour the claim describes is the tc
variant's: there `record_hit` keeps an in-domain value, substitutes `"other"`
for an out-of-domain value and `"unknown"` for a missing axis, so every
observation yields a total state tuple over the registered axes and is
always recorded (never rejected).  The oracle variant has no sentinel path:
any observation with no extractable dtype is rejected (`False`, nothing
stored). -/
theorem dispatcher_sentinels_amended :
    (∀ (s : DispatcherSpaceTC) (name : String) (sd : List (String × String)),
      ∃ dims, (((s.record_hit name (some sd)).2).api_dimensions.lookup name) = some dims
        ∧ (filteredState dims sd).toFinset
            ∈ dictGetD (((s.record_hit name (some sd)).2).api_hits) name ∅) ∧
    (∀ (dims : List (String × List String)) (sd : List (String × String))
        (d : String × List String), d ∈ dims →
      (d.1, match sd.lookup d.1 with
            | some v => if v ∈ d.2 then v else "other"
            | none => "unknown") ∈ filteredState dims sd) ∧
    (∀ (md5h : String → String) (s : DispatcherSpace) (name : String)
        (api : TorchAPI) (cuda : Bool),
      dtypesFound api = [] → (s.record_hit md5h name api cuda).1 = false) := by
  refine ⟨?_, ?_, ?_⟩
  · intro s name sd
    exact tc_record_mem_after s name sd
  · intro dims sd d hd
    simp only [filteredState]
    refine List.mem_map.mpr ⟨d, hd, ?_⟩
    cases sd.lookup d.1 <;> simp
  · intro md5h s name api cuda hdt
    rw [record_hit_registered md5h s name api cuda]
    set t := if (s.api_dimensions.lookup name).isNone
      then s.register_api name none else s with ht
    have hnn : (t.api_dimensions.lookup name).isNone = false := by
      rw [ht]
      split_ifs with h
      · simp [DispatcherSpace.register_api, lookup_dictSet_self]
      · cases hc : s.api_dimensions.lookup name
        · rw [hc] at h
          simp at h
        · simp
    rw [record_hit_cases md5h t name api cuda hnn, hdt]
    by_cases h1 : t.total_records ≥ t.max_hits
    · rw [if_pos h1]
    · rw [if_neg h1, if_pos (by simp [pySorted])]

/-- C4 witness: a one-argument observation without any dtype attribute has
no extractable dtype and is rejected by the oracle variant. -/
theorem dispatcher_sentinels_amended_witness :
    dtypesFound ⟨[("x", some ⟨none, none, none⟩)]⟩ = []
    ∧ (((DispatcherSpace.mk0 50000).register_api "f" none).record_hit id "f"
        ⟨[("x", some ⟨none, none, none⟩)]⟩ false).1 = false := by
  refine ⟨by decide, ?_⟩
  exact dispatcher_sentinels_amended.2.2 id
    ((DispatcherSpace.mk0 50000).register_api "f" none) "f"
    ⟨[("x", some ⟨none, none, none⟩)]⟩ false (by decide)

/- ====================================================================
C5: classification of fatal diagnostics.
==================================================================== -/

/-- A character of an md5 hexdigest: `[0-9a-f]` by code point. -/
def isHexLowerNat (c : Char) : Prop :=
  (48 ≤ c.toNat ∧ c.toNat ≤ 57) ∨ (97 ≤ c.toNat ∧ c.toNat ≤ 102)

instance (c : Char) : Decidable (isHexLowerNat c) := by
  unfold isHexLowerNat
  infer_instance

theorem toLower_hex_id (c : Char) (h : isHexLowerNat c) : c.toLower = c := by
  simp only [Char.toLower]
  rw [if_neg]
  rcases h with ⟨h1, h2⟩ | ⟨h1, h2⟩ <;> omega

theorem startsWithL_mem : ∀ (p l : List Char), startsWithL p l = true → ∀ c ∈ p, c ∈ l := by
  intro p
  induction p with
  | nil => intro l _ c hc; cases hc
  | cons a ps ih =>
    intro l h c hc
    cases l with
    | nil => simp [startsWithL] at h
    | cons b bs =>
      simp only [startsWithL, Bool.and_eq_true, beq_iff_eq] at h
      rcases List.mem_cons.mp hc with h1 | h1
      · rw [h1, ← h.1]
        exact List.mem_cons_self _ _
      · exact List.mem_cons_of_mem _ (ih bs h.2 c h1)

theorem hasSubL_mem : ∀ (l p : List Char), hasSubL p l = true → ∀ c ∈ p, c ∈ l := by
  intro l
  induction l with
  | nil =>
    intro p h c hc
    cases p with
    | nil => cases hc
    | cons a ps => simp [hasSubL, startsWithL] at h
  | cons b bs ih =>
    intro p h c hc
    simp only [hasSubL, Bool.or_eq_true] at h
    rcases h with h | h
    · exact startsWithL_mem p (b :: bs) h c hc
    · exact List.mem_cons_of_mem _ (ih p h c hc)

theorem no_sub_of_missing_char (p l : List Char) (c : Char) (hc : c ∈ p)
    (hnc : c ∉ l) : hasSubL p l = false := by
  cases h : hasSubL p l
  · rfl
  · exact absurd (hasSubL_mem l p h c hc) hnc

/-- C5.  The code's behaviour at the spec's fatal input: for every md5-style
fingerprint function (output characters in `[0-9a-f]`),
`BugAnalyzer.classify_bug "Segmentation fault"` returns `RUNTIME_OTHER`,
not the fatal category.  The rewritten `get_signature` fingerprints code
features (dtype / ndim / NaN / Inf, else `hash=` plus an md5 prefix), so the
crash markers `segfault` / `core_dump` that `classify_bug` looks for can
never occur in the signature of a crash diagnostic: the fatal branch is
unreachable for such texts, against both the spec and the code's own
`CRITICAL_SEGFAULT` branch and its unused `REGEX_PATTERNS` scrubbing
table. -/
theorem classify_segfault_runtime_other (md5h : String → String)
    (hhex : ∀ c ∈ (md5h "Segmentation fault").toList, isHexLowerNat c) :
    BugAnalyzer.classify_bug md5h "Segmentation fault" = "RUNTIME_OTHER" := by
  have hsig : BugAnalyzer.get_signature md5h "Segmentation fault"
      = "hash=" ++ md5h "Segmentation fault" := rfl
  have hsigl : (pyLower (BugAnalyzer.get_signature md5h "Segmentation fault")).toList
      = "hash=".toList ++ ((md5h "Segmentation fault").toList.map Char.toLower) := by
    rw [hsig]
    show ((("hash=" ++ md5h "Segmentation fault")).data.map Char.toLower) = _
    rw [String.data_append, List.map_append]
    rfl
  have hchars : ∀ c ∈ (pyLower (BugAnalyzer.get_signature md5h "Segmentation fault")).toList,
      c ∈ ("hash=".toList) ∨ isHexLowerNat c := by
    intro c hc
    rw [hsigl] at hc
    rcases List.mem_append.mp hc with h | h
    · exact Or.inl h
    · right
      obtain ⟨c0, hc0, hmap⟩ := List.mem_map.mp h
      have h0 := hhex c0 hc0
      rw [← hmap, toLower_hex_id c0 h0]
      exact h0
  have hno : ∀ kw : String,
      (∃ w, w ∈ kw.toList ∧ w ∉ ("hash=".toList) ∧ ¬isHexLowerNat w) →
      containsSub (pyLower (BugAnalyzer.get_signature md5h "Segmentation fault")) kw
        = false := by
    intro kw ⟨w, hw, hw1, hw2⟩
    apply no_sub_of_missing_char _ _ w hw
    intro hmem
    rcases hchars w hmem with h | h
    · exact hw1 h
    · exact hw2 h
  simp only [BugAnalyzer.classify_bug]
  rw [hno "segfault" (by decide), hno "core_dump" (by decide)]
  have hdeep : BugAnalyzer.deep_keywords.any
      (fun k => containsSub (pyLower (BugAnalyzer.get_signature md5h "Segmentation fault")) k)
      = false := by
    apply List.any_eq_false.mpr
    intro x hx
    fin_cases hx <;>
      { intro hcon
        rw [hno _ (by decide)] at hcon
        exact Bool.false_ne_true hcon }
  have hshallow : BugAnalyzer.shallow_keywords.any
      (fun k => containsSub (pyLower (BugAnalyzer.get_signature md5h "Segmentation fault")) k)
      = false := by
    apply List.any_eq_false.mpr
    intro x hx
    fin_cases hx <;>
      { intro hcon
        rw [hno _ (by decide)] at hcon
        exact Bool.false_ne_true hcon }
  rw [hdeep, hshallow]
  simp

/-- C5 witness: a fixed 12-hex-character fingerprint satisfies the md5
character hypothesis, and the classification of the segfault text is
`RUNTIME_OTHER`. -/
theorem classify_segfault_runtime_other_witness :
    (∀ c ∈ ((fun (_ : String) => "abc123abc123") "Segmentation fault").toList,
      isHexLowerNat c)
    ∧ BugAnalyzer.classify_bug (fun _ => "abc123abc123") "Segmentation fault"
      = "RUNTIME_OTHER" := by
  refine ⟨by decide, ?_⟩
  exact classify_segfault_runtime_other (fun _ => "abc123abc123") (by decide)

/- ====================================================================
C9: the orchestrator loop, early stop and checkpoint clearing.
==================================================================== -/

theorem fuzzIterBody_frame {α : Type} (env : FuzzLoopEnv α) (st : FuzzLoopState α)
    (i : Nat) :
    (fuzzIterBody env st i).manager = st.manager
    ∧ (fuzzIterBody env st i).stopped_early = st.stopped_early
    ∧ (fuzzIterBody env st i).logger_iterations = st.logger_iterations := by
  simp only [fuzzIterBody]
  split_ifs <;> exact ⟨rfl, rfl, rfl⟩

theorem fuzzSaveStep_frame {α : Type} (env : FuzzLoopEnv α) (st : FuzzLoopState α)
    (i : Nat) :
    (fuzzSaveStep env st i).manager = st.manager
    ∧ (fuzzSaveStep env st i).stopped_early = st.stopped_early
    ∧ (fuzzSaveStep env st i).fsys (st.manager.checkpointFile)
        = some ⟨(i : Int), (fuzzIterBody env st i).coverage.all_kernels,
            some (fuzzIterBody env st i).corpus.corpus,
            (fuzzIterBody env st i).logger_iterations,
            st.manager.strategy, st.manager.api_name⟩ := by
  obtain ⟨hm, hs, _⟩ := fuzzIterBody_frame env st i
  refine ⟨hm, hs, ?_⟩
  simp only [fuzzSaveStep, CheckpointManager.save, hm]
  simp

theorem runFuzzCore_manager {α : Type} (env : FuzzLoopEnv α) (ckint : Nat) :
    ∀ (n i : Nat) (st : FuzzLoopState α),
    (runFuzzCore env ckint i n st).manager = st.manager := by
  intro n
  induction n with
  | zero => intro i st; rfl
  | succ n ih =>
    intro i st
    simp only [runFuzzCore]
    split_ifs with h1 h2 h3
    · exact ih (i + 1) st
    · exact (fuzzSaveStep_frame env st i).1
    · rw [ih]
      exact (fuzzSaveStep_frame env st i).1
    · rw [ih]
      exact (fuzzIterBody_frame env st i).1

theorem runFuzzCore_stop_origin {α : Type} (env : FuzzLoopEnv α) (ckint : Nat) :
    ∀ (n i : Nat) (st : FuzzLoopState α) (j : Nat), st.stopped_early = none →
    (runFuzzCore env ckint i n st).stopped_early = some j →
    env.diskCritical j = true ∧ (j + 1) % ckint = 0 ∧ env.filtered j = false := by
  intro n
  induction n with
  | zero =>
    intro i st j h0 hres
    rw [show runFuzzCore env ckint i 0 st = st from rfl] at hres
    rw [h0] at hres
    cases hres
  | succ n ih =>
    intro i st j h0 hres
    simp only [runFuzzCore] at hres
    split_ifs at hres with h1 h2 h3
    · exact ih (i + 1) st j h0 hres
    · have hj : i = j := by simpa using hres
      subst hj
      have hf : env.filtered i = false := by
        cases hc : env.filtered i
        · rfl
        · exact absurd hc (by simpa using h1)
      exact ⟨h3, h2, hf⟩
    · exact ih (i + 1) _ j
        (by rw [(fuzzSaveStep_frame env st i).2.1]; exact h0) hres
    · exact ih (i + 1) _ j
        (by rw [(fuzzIterBody_frame env st i).2.1]; exact h0) hres

theorem runFuzzCore_no_critical {α : Type} (env : FuzzLoopEnv α) (ckint : Nat)
    (hnc : ∀ i, env.diskCritical i = false) :
    ∀ (n i : Nat) (st : FuzzLoopState α),
    (runFuzzCore env ckint i n st).stopped_early = st.stopped_early := by
  intro n
  induction n with
  | zero => intro i st; rfl
  | succ n ih =>
    intro i st
    simp only [runFuzzCore]
    split_ifs with h1 h2 h3
    · exact ih (i + 1) st
    · rw [hnc i] at h3
      cases h3
    · rw [ih]
      exact (fuzzSaveStep_frame env st i).2.1
    · rw [ih]
      exact (fuzzIterBody_frame env st i).2.1

theorem runFuzzCore_saved_at_stop {α : Type} (env : FuzzLoopEnv α) (ckint : Nat) :
    ∀ (n i : Nat) (st : FuzzLoopState α) (j : Nat), st.stopped_early = none →
    (runFuzzCore env ckint i n st).stopped_early = some j →
    ∃ d, (runFuzzCore env ckint i n st).fsys (st.manager.checkpointFile) = some d
      ∧ d.iteration = (j : Int) := by
  intro n
  induction n with
  | zero =>
    intro i st j h0 hres
    rw [show runFuzzCore env ckint i 0 st = st from rfl] at hres
    rw [h0] at hres
    cases hres
  | succ n ih =>
    intro i st j h0 hres
    simp only [runFuzzCore] at hres ⊢
    split_ifs at hres ⊢ with h1 h2 h3
    · exact ih (i + 1) st j h0 hres
    · have hj : i = j := by simpa using hres
      subst hj
      exact ⟨_, (fuzzSaveStep_frame env st i).2.2, rfl⟩
    · have hres2 := ih (i + 1) _ j
        (by rw [(fuzzSaveStep_frame env st i).2.1]; exact h0) hres
      rw [(fuzzSaveStep_frame env st i).1] at hres2
      exact hres2
    · have hres2 := ih (i + 1) _ j
        (by rw [(fuzzIterBody_frame env st i).2.1]; exact h0) hres
      rw [(fuzzIterBody_frame env st i).1] at hres2
      exact hres2

/-- C9 counterexample: disk-critical at the first checkpoint boundary stops
the loop early (iteration 1 of 6), yet after `run_fuzzing_loop` returns, the
checkpoint file is gone — the unconditional completion cleanup
(`checkpoint_manager.clear()`) also runs on the early, fatal exit, so the
persisted checkpoint IS lost, contradicting the claim. -/
theorem loop_checkpoint_cleared_cex :
    (runFuzzLoop (⟨fun _ => ∅, fun _ => (), fun _ => false, fun _ => true⟩ :
        FuzzLoopEnv Unit) 2 0 6
      ⟨EnhancedCoverageTracker.mk0 "t" false, EvolutionaryCorpus.mk0 Unit 100,
        CheckpointManager.mk0 "hybrid" "torch.add", fun _ => none, 0, none⟩).stopped_early
      = some 1
    ∧ 1 + 1 < 6
    ∧ (runFuzzLoop (⟨fun _ => ∅, fun _ => (), fun _ => false, fun _ => true⟩ :
        FuzzLoopEnv Unit) 2 0 6
      ⟨EnhancedCoverageTracker.mk0 "t" false, EvolutionaryCorpus.mk0 Unit 100,
        CheckpointManager.mk0 "hybrid" "torch.add", fun _ => none, 0, none⟩).fsys
        ((runFuzzLoop (⟨fun _ => ∅, fun _ => (), fun _ => false, fun _ => true⟩ :
          FuzzLoopEnv Unit) 2 0 6
        ⟨EnhancedCoverageTracker.mk0 "t" false, EvolutionaryCorpus.mk0 Unit 100,
          CheckpointManager.mk0 "hybrid" "torch.add", fun _ => none, 0,
          none⟩).manager.checkpointFile)
      = none := by
  refine ⟨rfl, by omega, rfl⟩

/-- C9 (amended).  A critical disk-guard verdict at a checkpoint boundary is
the only condition that stops the loop before `max_iterations` (with no
critical verdict the loop never stops early), and the state was saved at
that boundary before the break; but the checkpoint file does not survive the
early exit: the completion cleanup clears it unconditionally, so after
`run_fuzzing_loop` returns the checkpoint file is always gone, fatal exit or
not. -/
theorem loop_guard_only_stop_amended :
    (∀ (α : Type) (env : FuzzLoopEnv α) (ckint n i : Nat) (st : FuzzLoopState α) (j : Nat),
      st.stopped_early = none →
      (runFuzzCore env ckint i n st).stopped_early = some j →
      env.diskCritical j = true ∧ (j + 1) % ckint = 0 ∧ env.filtered j = false) ∧
    (∀ (α : Type) (env : FuzzLoopEnv α) (ckint n i : Nat) (st : FuzzLoopState α),
      (∀ k, env.diskCritical k = false) →
      (runFuzzCore env ckint i n st).stopped_early = st.stopped_early) ∧
    (∀ (α : Type) (env : FuzzLoopEnv α) (ckint n i : Nat) (st : FuzzLoopState α) (j : Nat),
      st.stopped_early = none →
      (runFuzzCore env ckint i n st).stopped_early = some j →
      ∃ d, (runFuzzCore env ckint i n st).fsys (st.manager.checkpointFile) = some d
        ∧ d.iteration = (j : Int)) ∧
    (∀ (α : Type) (env : FuzzLoopEnv α) (ckint start mx : Nat) (st : FuzzLoopState α),
      (runFuzzLoop env ckint start mx st).fsys
        ((runFuzzLoop env ckint start mx st).manager.checkpointFile) = none) := by
  refine ⟨?_, ?_, ?_, ?_⟩
  · intro α env ckint n i st j h0 hres
    exact runFuzzCore_stop_origin env ckint n i st j h0 hres
  · intro α env ckint n i st hnc
    exact runFuzzCore_no_critical env ckint hnc n i st
  · intro α env ckint n i st j h0 hres
    exact runFuzzCore_saved_at_stop env ckint n i st j h0 hres
  · intro α env ckint start mx st
    simp [runFuzzLoop, CheckpointManager.clear]

/-- C9 witness: in the counterexample run, the pre-cleanup loop state had
saved a checkpoint for the stopping iteration. -/
theorem loop_guard_only_stop_amended_witness :
    ∃ d, (runFuzzCore (⟨fun _ => ∅, fun _ => (), fun _ => false, fun _ => true⟩ :
        FuzzLoopEnv Unit) 2 0 6
      ⟨EnhancedCoverageTracker.mk0 "t" false, EvolutionaryCorpus.mk0 Unit 100,
        CheckpointManager.mk0 "hybrid" "torch.add", fun _ => none, 0, none⟩).fsys
        ((⟨EnhancedCoverageTracker.mk0 "t" false, EvolutionaryCorpus.mk0 Unit 100,
          CheckpointManager.mk0 "hybrid" "torch.add", fun _ => none, 0,
          none⟩ : FuzzLoopState Unit).manager.checkpointFile) = some d
      ∧ d.iteration = ((1 : Nat) : Int) := by
  exact loop_guard_only_stop_amended.2.2.1 Unit
    (⟨fun _ => ∅, fun _ => (), fun _ => false, fun _ => true⟩ : FuzzLoopEnv Unit) 2 6 0
    ⟨EnhancedCoverageTracker.mk0 "t" false, EvolutionaryCorpus.mk0 Unit 100,
      CheckpointManager.mk0 "hybrid" "torch.add", fun _ => none, 0, none⟩ 1 rfl rfl

/-- C7 witness: capacity 2, three admissible seeds — the corpus holds exactly
the last two, oldest first evicted. -/
theorem corpus_fifo_spec_witness :
    (∀ p ∈ [((1 : Nat), ({"a"} : Finset String)), (2, {"b"}), (3, {"c"})], p.2.card ≠ 0) ∧
    ([((1 : Nat), ({"a"} : Finset String)), (2, {"b"}), (3, {"c"})].foldl
      (fun c p => c.add_seed p.1 p.2) (EvolutionaryCorpus.mk0 Nat 2)).corpus = [2, 3] := by
  refine ⟨by decide, ?_⟩
  have h := corpus_fifo_spec.2.1 Nat 2
    [((1 : Nat), ({"a"} : Finset String)), (2, {"b"}), (3, {"c"})] (by decide)
  simpa using h

/- ====================================================================
C6: toolkit — substring occurrences across chunk boundaries.
==================================================================== -/

theorem hasSubL_nil_false (m : List Char) (hm : m ≠ []) : hasSubL m [] = false := by
  cases m with
  | nil => exact absurd rfl hm
  | cons a as => simp [hasSubL, startsWithL]

theorem startsWithL_append_avoid (c : Char) :
    ∀ (m a b : List Char), c ∉ m →
    startsWithL m (a ++ c :: b) = startsWithL m a := by
  intro m
  induction m with
  | nil => intro a b _; simp [startsWithL]
  | cons mh mt ih =>
    intro a b hc
    cases a with
    | nil =>
      simp only [List.nil_append, startsWithL]
      have : (mh == c) = false := by
        rw [beq_eq_false_iff_ne]
        intro h
        exact hc (h ▸ List.mem_cons_self _ _)
      rw [this]
      simp
    | cons x xs =>
      simp only [List.cons_append, startsWithL, List.append_eq]
      rw [ih xs b (fun h => hc (List.mem_cons_of_mem _ h))]

theorem startsWithL_append_nil (m a : List Char) :
    startsWithL m (a ++ []) = startsWithL m a := by
  rw [List.append_nil]

theorem hasSubL_append_block (m : List Char) (hm : m ≠ []) :
    ∀ (a b : List Char), (∀ c, b.head? = some c → c ∉ m) →
    hasSubL m (a ++ b) = (hasSubL m a || hasSubL m b) := by
  intro a
  induction a with
  | nil =>
    intro b _
    rw [List.nil_append, hasSubL_nil_false m hm]
    simp
  | cons x xs ih =>
    intro b hb
    simp only [List.cons_append, hasSubL, List.append_eq]
    have hsw : startsWithL m (x :: (xs ++ b)) = startsWithL m (x :: xs) := by
      cases b with
      | nil => rw [show x :: (xs ++ []) = x :: xs by simp]
      | cons c bs =>
        have := startsWithL_append_avoid c m (x :: xs) bs (hb c rfl)
        simpa using this
    rw [hsw, ih b hb, Bool.or_assoc]

theorem hasSubL_skip (m : List Char) (hm : m ≠ []) :
    ∀ (a b : List Char), (∀ c ∈ a, c ∉ m) →
    hasSubL m (a ++ b) = hasSubL m b := by
  intro a
  induction a with
  | nil => intro b _; rfl
  | cons x xs ih =>
    intro b ha
    cases m with
    | nil => exact absurd rfl hm
    | cons mh mt =>
      simp only [List.cons_append, hasSubL, startsWithL, List.append_eq]
      have : (mh == x) = false := by
        rw [beq_eq_false_iff_ne]
        intro h
        exact ha x (List.mem_cons_self _ _) (h ▸ List.mem_cons_self _ _)
      rw [this]
      simp only [Bool.false_and, Bool.false_or]
      exact ih b (fun c hc => ha c (List.mem_cons_of_mem _ hc))

theorem hex_isWord (c : Char) (h : isHexDigit c = true) : isWordChar c = true := by
  simp only [isHexDigit, Bool.or_eq_true, Bool.and_eq_true, decide_eq_true_eq] at h
  simp only [isWordChar, Bool.or_eq_true]
  rcases h with (h | ⟨h1, h2⟩) | ⟨h1, h2⟩
  · exact Or.inl (Or.inr h)
  · refine Or.inl (Or.inl ?_)
    simp only [Char.isAlpha, Char.isLower, Char.isUpper, Bool.or_eq_true, Bool.and_eq_true,
      decide_eq_true_eq]
    exact Or.inr ⟨h1, le_trans h2 (show 'f' ≤ 'z' by decide)⟩
  · refine Or.inl (Or.inl ?_)
    simp only [Char.isAlpha, Char.isLower, Char.isUpper, Bool.or_eq_true, Bool.and_eq_true,
      decide_eq_true_eq]
    exact Or.inl ⟨h1, le_trans h2 (show 'F' ≤ 'Z' by decide)⟩

theorem safeChar_not_word (c : Char) (h : safeChar c = true) : isWordChar c = false := by
  simp only [safeChar, Bool.and_eq_true, Bool.not_eq_true'] at h
  exact h.1

theorem startsWith_hex_tail :
    ∀ (hs m2 R : List Char), tailOK m2 = true →
    (∀ c ∈ hs, isHexDigit c = true) →
    (∀ r, R.head? = some r → safeChar r = true) →
    startsWithL m2 (hs ++ R) = false := by
  intro hs
  induction hs with
  | nil =>
    intro m2 R ht _ hR
    cases m2 with
    | nil => simp [tailOK] at ht
    | cons c m2' =>
      cases R with
      | nil => simp [startsWithL]
      | cons r R' =>
        simp only [List.nil_append, startsWithL]
        have hcw : isWordChar c = true := by
          simp only [tailOK] at ht
          split_ifs at ht with hhex
          · exact hex_isWord c hhex
          · exact ht
        have : (c == r) = false := by
          rw [beq_eq_false_iff_ne]
          intro h
          rw [h] at hcw
          rw [safeChar_not_word r (hR r rfl)] at hcw
          exact Bool.false_ne_true hcw
        rw [this]
        simp
  | cons hc hs' ih =>
    intro m2 R ht hh hR
    cases m2 with
    | nil => simp [tailOK] at ht
    | cons c m2' =>
      simp only [List.cons_append, startsWithL, List.append_eq]
      cases hbe : (c == hc) with
      | false => simp
      | true =>
        have hceq : c = hc := by exact beq_iff_eq.mp hbe
        have hchex : isHexDigit c = true := hceq ▸ hh hc (List.mem_cons_self _ _)
        have ht' : tailOK m2' = true := by
          simp only [tailOK, if_pos hchex] at ht
          exact ht
        rw [ih m2' R ht' (fun a ha => hh a (List.mem_cons_of_mem _ ha)) hR]
        simp

theorem hasSubL_hex_skip (m : List Char) (hm : markerOK m = true) :
    ∀ (hs R : List Char), (∀ c ∈ hs, isHexDigit c = true) →
    (∀ r, R.head? = some r → safeChar r = true) →
    hasSubL m (hs ++ R) = hasSubL m R := by
  intro hs
  induction hs with
  | nil => intro R _ _; rfl
  | cons hc hs' ih =>
    intro R hh hR
    cases m with
    | nil => simp [markerOK] at hm
    | cons mh mt =>
      simp only [List.cons_append, hasSubL, List.append_eq]
      have hsw : startsWithL (mh :: mt) (hc :: (hs' ++ R)) = false := by
        simp only [startsWithL]
        cases hbe : (mh == hc) with
        | false => simp
        | true =>
          have hmh : mh = hc := beq_iff_eq.mp hbe
          have hmhex : isHexDigit mh = true := hmh ▸ hh hc (List.mem_cons_self _ _)
          have htl : tailOK mt = true := by
            simp only [markerOK, Bool.and_eq_true, Bool.or_eq_true, Bool.not_eq_true'] at hm
            rcases hm.2 with h | h
            · rw [hmhex] at h; exact absurd h (by simp)
            · exact h
          rw [startsWith_hex_tail hs' mt R htl
            (fun a ha => hh a (List.mem_cons_of_mem _ ha)) hR]
          simp
      rw [hsw]
      simp only [Bool.false_or]
      exact ih R (fun a ha => hh a (List.mem_cons_of_mem _ ha)) hR

theorem renderChunks_cons (ch : Chunk) (rest : List Chunk) :
    renderChunks (ch :: rest) = ch.render ++ renderChunks rest := by
  simp [renderChunks]

theorem wfChunks_head (a : Chunk) (l : List Chunk) (h : wfChunks (a :: l) = true) :
    a.wf = true := by
  cases l with
  | nil => exact h
  | cons b l' =>
    simp only [wfChunks, Bool.and_eq_true] at h
    exact h.1.1

theorem wfChunks_tail (a : Chunk) (l : List Chunk) (h : wfChunks (a :: l) = true) :
    wfChunks l = true := by
  cases l with
  | nil => rfl
  | cons b l' =>
    simp only [wfChunks, Bool.and_eq_true] at h
    exact h.2

theorem okPair_of_wf (a b : Chunk) (l : List Chunk) (h : wfChunks (a :: b :: l) = true) :
    okPair a b = true := by
  simp only [wfChunks, Bool.and_eq_true] at h
  exact h.1.2

theorem markerOK_ne_nil (m : List Char) (h : markerOK m = true) : m ≠ [] := by
  intro he
  rw [he] at h
  simp [markerOK] at h

theorem markerOK_chars (m : List Char) (h : markerOK m = true) :
    ∀ c ∈ m, c.isDigit = false ∧ c ≠ '\n' ∧ c ≠ '.' := by
  cases m with
  | nil => simp [markerOK] at h
  | cons c0 rest =>
    simp only [markerOK, Bool.and_eq_true, List.all_eq_true, Bool.not_eq_true',
      decide_eq_true_eq] at h
    intro c hc
    have := h.1.1 c hc
    exact ⟨this.1.1, this.1.2, this.2⟩

theorem markerOK_digit_not_mem (m : List Char) (h : markerOK m = true) (c : Char)
    (hd : c.isDigit = true) : c ∉ m := by
  intro hc
  rw [(markerOK_chars m h c hc).1] at hd
  exact Bool.false_ne_true hd

theorem head?_append_of_ne_nil {α : Type} (a b : List α) (h : a ≠ []) :
    (a ++ b).head? = a.head? := by
  cases a with
  | nil => exact absurd rfl h
  | cons x xs => rfl

theorem hole_render_head (ch : Chunk) (hwf : Chunk.wf ch = true)
    (hlit : ∀ s, ch ≠ Chunk.lit s) :
    ∃ c l, ch.render = c :: l ∧ c.isDigit = true := by
  cases ch with
  | lit s => exact absurd rfl (hlit s)
  | num d =>
    simp only [Chunk.wf, Bool.and_eq_true, Bool.not_eq_true', List.all_eq_true] at hwf
    cases d with
    | nil => simp at hwf
    | cons c l => exact ⟨c, l, rfl, hwf.2 c (List.mem_cons_self _ _)⟩
  | flt d1 d2 =>
    simp only [Chunk.wf, Bool.and_eq_true, Bool.not_eq_true', List.all_eq_true] at hwf
    cases d1 with
    | nil => simp at hwf
    | cons c l =>
      exact ⟨c, l ++ '.' :: d2, by simp [Chunk.render], hwf.1.1.2 c (List.mem_cons_self _ _)⟩
  | addr h => exact ⟨'0', 'x' :: h, rfl, by decide⟩

theorem render_rest_head_safe (h0 : List Char) (rest : List Chunk)
    (hwf : wfChunks (Chunk.addr h0 :: rest) = true) :
    ∀ r, (renderChunks rest).head? = some r → safeChar r = true := by
  intro r hr
  cases rest with
  | nil => simp [renderChunks] at hr
  | cons ch2 rest2 =>
    have hok := okPair_of_wf _ _ _ hwf
    cases ch2 with
    | lit t =>
      cases t with
      | nil => simp [okPair] at hok
      | cons r0 ts =>
        simp only [okPair, List.head?_cons, Option.map_some', Option.getD_some] at hok
        rw [renderChunks_cons] at hr
        rw [head?_append_of_ne_nil _ _ (by simp [Chunk.render])] at hr
        simp only [Chunk.render, List.head?_cons] at hr
        rw [← Option.some.inj hr]
        exact hok
    | num d => simp [okPair] at hok
    | flt d1 d2 => simp [okPair] at hok
    | addr h2 => simp [okPair] at hok

theorem hasSubL_render_localize (m : List Char) (hm : markerOK m = true) :
    ∀ cs, wfChunks cs = true →
    hasSubL m (renderChunks cs) = cs.any (litHas m) := by
  intro cs
  induction cs with
  | nil =>
    intro _
    rw [show renderChunks [] = [] from rfl, hasSubL_nil_false m (markerOK_ne_nil m hm)]
    rfl
  | cons ch rest ih =>
    intro hwf
    have hrest := wfChunks_tail ch rest hwf
    have hchwf := wfChunks_head ch rest hwf
    rw [renderChunks_cons, List.any_cons]
    cases ch with
    | lit s =>
      have hblock : ∀ c, (renderChunks rest).head? = some c → c ∉ m := by
        intro c hc
        cases rest with
        | nil => simp [renderChunks] at hc
        | cons ch2 rest2 =>
          have hok := okPair_of_wf _ _ _ hwf
          have hch2 : ∀ t, ch2 ≠ Chunk.lit t := by
            intro t he
            rw [he] at hok
            simp [okPair] at hok
          obtain ⟨c0, l0, hr, hd⟩ := hole_render_head ch2 (wfChunks_head _ _ hrest) hch2
          rw [renderChunks_cons, hr] at hc
          have : c = c0 := by
            have := hc
            simp only [List.cons_append, List.head?_cons] at this
            exact (Option.some.inj this).symm
          rw [this]
          exact markerOK_digit_not_mem m hm c0 hd
      rw [hasSubL_append_block m (markerOK_ne_nil m hm) _ _ hblock, ih hrest]
      rfl
    | num d =>
      have hdig : ∀ c ∈ d, c ∉ m := by
        simp only [Chunk.wf, Bool.and_eq_true, List.all_eq_true] at hchwf
        intro c hc
        exact markerOK_digit_not_mem m hm c (hchwf.2 c hc)
      rw [show Chunk.render (Chunk.num d) = d from rfl,
        hasSubL_skip m (markerOK_ne_nil m hm) _ _ hdig, ih hrest]
      rfl
    | flt d1 d2 =>
      have hdig : ∀ c ∈ d1 ++ '.' :: d2, c ∉ m := by
        simp only [Chunk.wf, Bool.and_eq_true, List.all_eq_true] at hchwf
        intro c hc
        rcases List.mem_append.mp hc with h | h
        · exact markerOK_digit_not_mem m hm c (hchwf.1.1.2 c h)
        · rcases List.mem_cons.mp h with h | h
          · rw [h]
            intro hmem
            exact (markerOK_chars m hm '.' hmem).2.2 rfl
          · exact markerOK_digit_not_mem m hm c (hchwf.2 c h)
      rw [show Chunk.render (Chunk.flt d1 d2) = d1 ++ '.' :: d2 from rfl,
        hasSubL_skip m (markerOK_ne_nil m hm) _ _ hdig, ih hrest]
      rfl
    | addr h0 =>
      have hhex : ∀ c ∈ h0, isHexDigit c = true := by
        simp only [Chunk.wf, Bool.and_eq_true, List.all_eq_true] at hchwf
        exact hchwf.2
      cases m with
      | nil => simp [markerOK] at hm
      | cons mh mt =>
        have hmh := markerOK_chars _ hm mh (List.mem_cons_self _ _)
        have hmx : (mh = 'x') = False := by
          simp only [markerOK, Bool.and_eq_true, Bool.not_eq_true', decide_eq_false_iff_not] at hm
          simp [hm.1.2]
        rw [show Chunk.render (Chunk.addr h0) ++ renderChunks rest
            = '0' :: 'x' :: (h0 ++ renderChunks rest) by simp [Chunk.render]]
        rw [show hasSubL (mh :: mt) ('0' :: 'x' :: (h0 ++ renderChunks rest))
            = (startsWithL (mh :: mt) ('0' :: 'x' :: (h0 ++ renderChunks rest))
              || (startsWithL (mh :: mt) ('x' :: (h0 ++ renderChunks rest))
                || hasSubL (mh :: mt) (h0 ++ renderChunks rest))) from rfl]
        have h1 : startsWithL (mh :: mt) ('0' :: 'x' :: (h0 ++ renderChunks rest)) = false := by
          simp only [startsWithL]
          have : (mh == '0') = false := by
            rw [beq_eq_false_iff_ne]
            intro he
            rw [he] at hmh
            exact absurd hmh.1 (by decide)
          rw [this]
          simp
        have h2 : startsWithL (mh :: mt) ('x' :: (h0 ++ renderChunks rest)) = false := by
          simp only [startsWithL]
          have : (mh == 'x') = false := by
            rw [beq_eq_false_iff_ne]
            intro he
            exact hmx ▸ he
          rw [this]
          simp
        rw [h1, h2,
          hasSubL_hex_skip (mh :: mt) hm h0 (renderChunks rest) hhex
            (render_rest_head_safe h0 rest hwf),
          ih hrest]
        rfl

/- ====================================================================
C6: shape lemmas and line-level occurrence lemmas.
==================================================================== -/

theorem sameShape_symm (a b : Chunk) (h : a.sameShape b = true) : b.sameShape a = true := by
  cases a <;> cases b <;> simp_all [Chunk.sameShape]

theorem sameShapeL_symm : ∀ (l l' : List Chunk), sameShapeL l l' = true →
    sameShapeL l' l = true := by
  intro l
  induction l with
  | nil => intro l' h; cases l' <;> simp_all [sameShapeL]
  | cons a as ih =>
    intro l' h
    cases l' with
    | nil => simp [sameShapeL] at h
    | cons b bs =>
      simp only [sameShapeL, Bool.and_eq_true] at h ⊢
      exact ⟨sameShape_symm a b h.1, ih bs h.2⟩

theorem sameShapeT_symm : ∀ (t t' : List (List Chunk)), sameShapeT t t' = true →
    sameShapeT t' t = true := by
  intro t
  induction t with
  | nil => intro t' h; cases t' <;> simp_all [sameShapeT]
  | cons a as ih =>
    intro t' h
    cases t' with
    | nil => simp [sameShapeT] at h
    | cons b bs =>
      simp only [sameShapeT, Bool.and_eq_true] at h ⊢
      exact ⟨sameShapeL_symm a b h.1, ih bs h.2⟩

theorem sameShapeT_append : ∀ (a b c d : List (List Chunk)),
    sameShapeT a b = true → sameShapeT c d = true → sameShapeT (a ++ c) (b ++ d) = true := by
  intro a
  induction a with
  | nil =>
    intro b c d hab hcd
    cases b with
    | nil => exact hcd
    | cons x xs => simp [sameShapeT] at hab
  | cons x xs ih =>
    intro b c d hab hcd
    cases b with
    | nil => simp [sameShapeT] at hab
    | cons y ys =>
      simp only [sameShapeT, Bool.and_eq_true, List.cons_append] at hab ⊢
      exact ⟨hab.1, ih ys c d hab.2 hcd⟩

theorem sameShapeT_reverse : ∀ (t t' : List (List Chunk)), sameShapeT t t' = true →
    sameShapeT t.reverse t'.reverse = true := by
  intro t
  induction t with
  | nil => intro t' h; cases t' <;> simp_all [sameShapeT]
  | cons a as ih =>
    intro t' h
    cases t' with
    | nil => simp [sameShapeT] at h
    | cons b bs =>
      simp only [sameShapeT, Bool.and_eq_true] at h
      rw [List.reverse_cons, List.reverse_cons]
      refine sameShapeT_append _ _ _ _ (ih bs h.2) ?_
      simp [sameShapeT, h.1]

theorem any_litHas_shape (m : List Char) : ∀ (cs cs' : List Chunk),
    sameShapeL cs cs' = true → cs.any (litHas m) = cs'.any (litHas m) := by
  intro cs
  induction cs with
  | nil => intro cs' h; cases cs' <;> simp_all [sameShapeL]
  | cons a as ih =>
    intro cs' h
    cases cs' with
    | nil => simp [sameShapeL] at h
    | cons b bs =>
      simp only [sameShapeL, Bool.and_eq_true] at h
      rw [List.any_cons, List.any_cons, ih bs h.2]
      have : litHas m a = litHas m b := by
        cases a <;> cases b <;> simp_all [Chunk.sameShape, litHas]
      rw [this]

theorem pShape_shape (cs cs' : List Chunk) (h : sameShapeL cs cs' = true) :
    pShape cs = pShape cs' := by
  simp only [pShape, rtMarkers, List.any_cons, List.any_nil]
  rw [any_litHas_shape _ _ _ h, any_litHas_shape _ _ _ h, any_litHas_shape _ _ _ h]

theorem pLine_render (cs : List Chunk) (hwf : wfChunks cs = true) :
    pLine (renderChunks cs) = pShape cs := by
  simp only [pLine, pShape, rtMarkers, List.any_cons, List.any_nil]
  rw [hasSubL_render_localize _ (by decide) cs hwf,
    hasSubL_render_localize _ (by decide) cs hwf,
    hasSubL_render_localize _ (by decide) cs hwf]

theorem wfT_mem (t : List (List Chunk)) (h : wfT t = true) :
    ∀ l ∈ t, wfChunks l = true := by
  simp only [wfT, List.all_eq_true] at h
  exact h

theorem hasSubL_renderLines (m : List Char) (hm : markerOK m = true) :
    ∀ t, wfT t = true →
    hasSubL m (renderLines t) = t.any (fun l => l.any (litHas m)) := by
  intro t
  induction t with
  | nil =>
    intro _
    rw [show renderLines [] = [] from rfl, hasSubL_nil_false m (markerOK_ne_nil m hm)]
    rfl
  | cons l ls ih =>
    intro hwf
    have hl : wfChunks l = true := wfT_mem _ hwf l (List.mem_cons_self _ _)
    have hls : wfT ls = true := by
      simp only [wfT, List.all_eq_true] at hwf ⊢
      exact fun x hx => hwf x (List.mem_cons_of_mem _ hx)
    cases ls with
    | nil =>
      rw [show renderLines [l] = renderChunks l from rfl,
        hasSubL_render_localize m hm l hl]
      simp
    | cons l2 ls2 =>
      rw [show renderLines (l :: l2 :: ls2) = renderChunks l ++ '\n' :: renderLines (l2 :: ls2)
          from rfl]
      have hnl : ∀ c, ('\n' :: renderLines (l2 :: ls2)).head? = some c → c ∉ m := by
        intro c hc
        have : c = '\n' := by
          have := hc
          simp only [List.head?_cons] at this
          exact (Option.some.inj this).symm
        rw [this]
        intro hmem
        exact (markerOK_chars m hm '\n' hmem).2.1 rfl
      rw [hasSubL_append_block m (markerOK_ne_nil m hm) _ _ hnl]
      have : hasSubL m ('\n' :: renderLines (l2 :: ls2)) = hasSubL m (renderLines (l2 :: ls2)) := by
        cases m with
        | nil => exact absurd rfl (markerOK_ne_nil _ hm)
        | cons mh mt =>
          rw [show hasSubL (mh :: mt) ('\n' :: renderLines (l2 :: ls2))
              = (startsWithL (mh :: mt) ('\n' :: renderLines (l2 :: ls2))
                || hasSubL (mh :: mt) (renderLines (l2 :: ls2))) from rfl]
          have : startsWithL (mh :: mt) ('\n' :: renderLines (l2 :: ls2)) = false := by
            simp only [startsWithL]
            have : (mh == '\n') = false := by
              rw [beq_eq_false_iff_ne]
              intro he
              exact (markerOK_chars _ hm mh (List.mem_cons_self _ _)).2.1 he
            rw [this]
            simp
          rw [this]
          simp
      rw [this, ih hls, hasSubL_render_localize m hm l hl]
      simp

theorem any_any_litHas_shape (m : List Char) : ∀ (t t' : List (List Chunk)),
    sameShapeT t t' = true →
    t.any (fun l => l.any (litHas m)) = t'.any (fun l => l.any (litHas m)) := by
  intro t
  induction t with
  | nil => intro t' h; cases t' <;> simp_all [sameShapeT]
  | cons a as ih =>
    intro t' h
    cases t' with
    | nil => simp [sameShapeT] at h
    | cons b bs =>
      simp only [sameShapeT, Bool.and_eq_true] at h
      rw [List.any_cons, List.any_cons, ih bs h.2, any_litHas_shape m a b h.1]

/- ====================================================================
C6: the ADDR substitution pass on a rendered template.
==================================================================== -/

theorem dropWhile_append_all (p : Char → Bool) :
    ∀ (a b : List Char), (∀ c ∈ a, p c = true) →
    (∀ c, b.head? = some c → p c = false) →
    (a ++ b).dropWhile p = b := by
  intro a
  induction a with
  | nil =>
    intro b _ hb
    cases b with
    | nil => rfl
    | cons c cs =>
      simp only [List.nil_append, List.dropWhile]
      rw [hb c rfl]
  | cons x xs ih =>
    intro x1 ha hb
    simp only [List.cons_append, List.dropWhile]
    rw [ha x (List.mem_cons_self _ _)]
    exact ih x1 (fun c hc => ha c (List.mem_cons_of_mem _ hc)) hb

theorem digit_isWord (c : Char) (h : c.isDigit = true) : isWordChar c = true := by
  simp only [isWordChar, Bool.or_eq_true]
  exact Or.inl (Or.inr h)

theorem safeChar_not_digit (c : Char) (h : safeChar c = true) : c.isDigit = false := by
  cases hd : c.isDigit with
  | false => rfl
  | true =>
    have h1 := digit_isWord c hd
    rw [safeChar_not_word c h] at h1
    exact (Bool.false_ne_true h1).elim

theorem safeChar_ne_dot (c : Char) (h : safeChar c = true) : c ≠ '.' := by
  simp only [safeChar, Bool.and_eq_true, Bool.not_eq_true', decide_eq_true_eq] at h
  exact h.2

theorem safeChar_not_hex (c : Char) (h : safeChar c = true) : isHexDigit c = false := by
  cases hd : isHexDigit c with
  | false => rfl
  | true =>
    have h1 := hex_isWord c hd
    rw [safeChar_not_word c h] at h1
    exact (Bool.false_ne_true h1).elim

theorem stream_head_safe (g : Chunk → List Char) (hg : ∀ t, g (Chunk.lit t) = t)
    (ch : Chunk) (rest : List Chunk) (hwf : wfChunks (ch :: rest) = true)
    (hhole : ∀ s, ch ≠ Chunk.lit s) :
    ∀ r, ((rest.map g).flatten).head? = some r → safeChar r = true := by
  intro r hr
  cases rest with
  | nil => simp at hr
  | cons ch2 rest2 =>
    have hok := okPair_of_wf _ _ _ hwf
    cases ch2 with
    | lit t =>
      cases t with
      | nil =>
        cases ch with
        | lit s => exact absurd rfl (hhole s)
        | num d => simp [okPair] at hok
        | flt d1 d2 => simp [okPair] at hok
        | addr h2 => simp [okPair] at hok
      | cons r0 ts =>
        have hsafe : safeChar r0 = true := by
          cases ch with
          | lit s => exact absurd rfl (hhole s)
          | num d => simpa [okPair] using hok
          | flt d1 d2 => simpa [okPair] using hok
          | addr h2 => simpa [okPair] using hok
        rw [show (((Chunk.lit (r0 :: ts)) :: rest2).map g).flatten
            = g (Chunk.lit (r0 :: ts)) ++ (rest2.map g).flatten by simp] at hr
        rw [hg (r0 :: ts)] at hr
        simp only [List.cons_append, List.head?_cons] at hr
        rw [← Option.some.inj hr]
        exact hsafe
    | num d =>
      cases ch with
      | lit s => exact absurd rfl (hhole s)
      | num d2 => simp [okPair] at hok
      | flt d1 d2 => simp [okPair] at hok
      | addr h2 => simp [okPair] at hok
    | flt d1 d2 =>
      cases ch with
      | lit s => exact absurd rfl (hhole s)
      | num d2 => simp [okPair] at hok
      | flt d3 d4 => simp [okPair] at hok
      | addr h2 => simp [okPair] at hok
    | addr h2 =>
      cases ch with
      | lit s => exact absurd rfl (hhole s)
      | num d2 => simp [okPair] at hok
      | flt d3 d4 => simp [okPair] at hok
      | addr h3 => simp [okPair] at hok

theorem subAddr_nil : subAddr [] = [] := by
  simp [subAddr]

theorem subAddr_cons_pass (x : Char) (l : List Char) (hx : x ≠ '0') :
    subAddr (x :: l) = x :: subAddr l := by
  rw [subAddr.eq_def]
  split
  · simp_all
  · rename_i heq
    exfalso
    apply hx
    exact (List.cons.injEq _ _ _ _ ▸ heq).1
  · rename_i heq
    injection heq with h1 h2
    rw [← h1, ← h2]

theorem subAddr_zero_pass (l : List Char) (hl : ∀ c, l.head? = some c → c ≠ 'x') :
    subAddr ('0' :: l) = '0' :: subAddr l := by
  rw [subAddr.eq_def]
  split
  · rename_i heq
    simp at heq
  · rename_i heq
    injection heq with h1 h2
    exact ((hl 'x' (by rw [h2]; rfl)) rfl).elim
  · rename_i heq
    injection heq with h1 h2
    rw [← h1, ← h2]

theorem subAddr_pass : ∀ (a b : List Char), (∀ c ∈ a, c ≠ '0') →
    subAddr (a ++ b) = a ++ subAddr b := by
  intro a
  induction a with
  | nil => intro b _; rfl
  | cons x xs ih =>
    intro b ha
    rw [List.cons_append, subAddr_cons_pass x _ (ha x (List.mem_cons_self _ _)),
      ih b (fun c hc => ha c (List.mem_cons_of_mem _ hc))]
    rfl

theorem subAddr_digits : ∀ (d b : List Char), (∀ c ∈ d, c.isDigit = true) →
    (∀ c, b.head? = some c → c ≠ 'x') →
    subAddr (d ++ b) = d ++ subAddr b := by
  intro d
  induction d with
  | nil => intro b _ _; rfl
  | cons x xs ih =>
    intro b hd hb
    rw [List.cons_append]
    by_cases hx : x = '0'
    · rw [hx, subAddr_zero_pass]
      · rw [ih b (fun c hc => hd c (List.mem_cons_of_mem _ hc)) hb]
        rfl
      · intro c hc he
        cases xs with
        | nil =>
          rw [List.nil_append] at hc
          exact hb c hc he
        | cons y ys =>
          simp only [List.cons_append, List.head?_cons] at hc
          have h1 : c = y := (Option.some.inj hc).symm
          have hy : y.isDigit = true := hd y (List.mem_cons_of_mem _ (List.mem_cons_self _ _))
          have hyx : y = 'x' := by rw [← h1, he]
          rw [hyx] at hy
          exact absurd hy (by decide)
    · rw [subAddr_cons_pass x _ hx,
        ih b (fun c hc => hd c (List.mem_cons_of_mem _ hc)) hb]
      rfl

theorem subAddr_hit (h R : List Char) (hc : Char) (hs : List Char) (h0 : h = hc :: hs)
    (hh : ∀ c ∈ h, isHexDigit c = true)
    (hR : ∀ c, R.head? = some c → isHexDigit c = false) :
    subAddr ('0' :: 'x' :: (h ++ R)) = "ADDR".toList ++ subAddr R := by
  have hdrop : (h ++ R).dropWhile isHexDigit = R := dropWhile_append_all isHexDigit h R hh hR
  have htake : ((h ++ R).takeWhile isHexDigit).isEmpty = false := by
    subst h0
    simp only [List.cons_append, List.takeWhile]
    rw [hh hc (List.mem_cons_self _ _)]
    simp
  rw [subAddr.eq_def]
  split
  · rename_i heq
    simp at heq
  · rename_i heq
    injection heq with e1 e2
    injection e2 with e3 e4
    rw [← e4, if_neg (by rw [htake]; simp), hdrop]
  · rename_i hcon heq
    injection heq with e1 e2
    exact (hcon (h ++ R) e1.symm e2.symm).elim

theorem flattenA_cons (ch : Chunk) (rest : List Chunk) :
    flattenA (ch :: rest) = chA ch ++ flattenA rest := by
  simp [flattenA]

theorem lit_chars_ne_zero (s : List Char) (hs : ∀ c ∈ s, c.isDigit = false) :
    ∀ c ∈ s, c ≠ '0' := by
  intro c hc he
  have := hs c hc
  rw [he] at this
  exact absurd this (by decide)

theorem subAddr_render : ∀ cs, wfChunks cs = true →
    subAddr (renderChunks cs) = flattenA cs := by
  intro cs
  induction cs with
  | nil => exact fun _ => subAddr_nil
  | cons ch rest ih =>
    intro hwf
    have hrest := wfChunks_tail ch rest hwf
    have hchwf := wfChunks_head ch rest hwf
    rw [renderChunks_cons, flattenA_cons]
    cases ch with
    | lit s =>
      simp only [Chunk.wf, Bool.and_eq_true, List.all_eq_true, Bool.not_eq_true',
        decide_eq_true_eq] at hchwf
      rw [show Chunk.render (Chunk.lit s) = s from rfl, show chA (Chunk.lit s) = s from rfl,
        subAddr_pass s _ (lit_chars_ne_zero s (fun c hc => (hchwf.2 c hc).1)), ih hrest]
    | num d =>
      simp only [Chunk.wf, Bool.and_eq_true, List.all_eq_true] at hchwf
      have hb : ∀ c, (renderChunks rest).head? = some c → c ≠ 'x' := by
        intro c hch he
        have hsafe := stream_head_safe Chunk.render (fun _ => rfl) (Chunk.num d) rest hwf
          (fun s h => by cases h) c hch
        rw [he] at hsafe
        exact absurd (safeChar_not_word 'x' hsafe) (by decide)
      rw [show Chunk.render (Chunk.num d) = d from rfl, show chA (Chunk.num d) = d from rfl,
        subAddr_digits d _ hchwf.2 hb, ih hrest]
    | flt d1 d2 =>
      simp only [Chunk.wf, Bool.and_eq_true, List.all_eq_true] at hchwf
      have hb : ∀ c, (renderChunks rest).head? = some c → c ≠ 'x' := by
        intro c hch he
        have hsafe := stream_head_safe Chunk.render (fun _ => rfl) (Chunk.flt d1 d2) rest hwf
          (fun s h => by cases h) c hch
        rw [he] at hsafe
        exact absurd (safeChar_not_word 'x' hsafe) (by decide)
      rw [show Chunk.render (Chunk.flt d1 d2) = d1 ++ '.' :: d2 from rfl,
        show chA (Chunk.flt d1 d2) = d1 ++ '.' :: d2 from rfl]
      rw [List.append_assoc, List.cons_append]
      rw [subAddr_digits d1 _ hchwf.1.1.2 (by
        intro c hch
        have h1 : '.' = c := Option.some.inj hch
        rw [← h1]
        decide)]
      rw [subAddr_cons_pass '.' _ (by decide)]
      rw [subAddr_digits d2 _ hchwf.2 hb, ih hrest]
      simp
    | addr h0 =>
      simp only [Chunk.wf, Bool.and_eq_true, List.all_eq_true, Bool.not_eq_true'] at hchwf
      have hb : ∀ c, (renderChunks rest).head? = some c → isHexDigit c = false := by
        intro c hch
        exact safeChar_not_hex c (stream_head_safe Chunk.render (fun _ => rfl)
          (Chunk.addr h0) rest hwf (fun s h => by cases h) c hch)
      cases hh0 : h0 with
      | nil =>
        rw [hh0] at hchwf
        simp at hchwf
      | cons hc hs =>
        rw [show (Chunk.addr (hc :: hs)).render ++ renderChunks rest
            = '0' :: 'x' :: ((hc :: hs) ++ renderChunks rest) by simp [Chunk.render]]
        rw [subAddr_hit (hc :: hs) _ hc hs rfl (hh0 ▸ hchwf.2) hb, ih hrest]
        rfl

/- ====================================================================
C6: the FLOAT and INT substitution passes.
==================================================================== -/

theorem flattenB_cons (ch : Chunk) (rest : List Chunk) :
    flattenB (ch :: rest) = chB ch ++ flattenB rest := by
  simp [flattenB]

theorem scrubRender_cons (ch : Chunk) (rest : List Chunk) :
    scrubRender (ch :: rest) = scrubC ch ++ scrubRender rest := by
  simp [scrubRender]

theorem subFloat_nil : subFloat [] = [] := by
  simp [subFloat]

theorem subFloat_cons_pass (x : Char) (l : List Char) (hx : x.isDigit = false) :
    subFloat (x :: l) = x :: subFloat l := by
  rw [subFloat.eq_def]
  split
  · rename_i heq
    simp at heq
  · rename_i heq
    injection heq with h1 h2
    rw [← h1, ← h2, if_neg (by rw [hx]; simp)]

theorem subFloat_pass : ∀ (a b : List Char), (∀ c ∈ a, c.isDigit = false) →
    subFloat (a ++ b) = a ++ subFloat b := by
  intro a
  induction a with
  | nil => intro b _; rfl
  | cons x xs ih =>
    intro b ha
    rw [List.cons_append, subFloat_cons_pass x _ (ha x (List.mem_cons_self _ _)),
      ih b (fun c hc => ha c (List.mem_cons_of_mem _ hc))]
    rfl

theorem subFloat_digits : ∀ (d b : List Char), (∀ c ∈ d, c.isDigit = true) →
    (∀ c, b.head? = some c → safeChar c = true) →
    subFloat (d ++ b) = d ++ subFloat b := by
  intro d
  induction d with
  | nil => intro b _ _; rfl
  | cons x xs ih =>
    intro b hd hb
    have hdw : (xs ++ b).dropWhile Char.isDigit = b :=
      dropWhile_append_all _ xs b (fun c hc => hd c (List.mem_cons_of_mem _ hc))
        (fun c hc => safeChar_not_digit c (hb c hc))
    rw [List.cons_append, subFloat.eq_def]
    split
    · rename_i heq
      simp at heq
    · rename_i heq
      injection heq with h1 h2
      rw [← h1, ← h2, if_pos (hd x (List.mem_cons_self _ _))]
      split
      · rename_i r2 heq2
        exfalso
        rw [hdw] at heq2
        have hsafe := hb '.' (by rw [heq2]; rfl)
        exact (safeChar_ne_dot '.' hsafe) rfl
      · rw [ih b (fun c hc => hd c (List.mem_cons_of_mem _ hc)) hb]
        rfl

theorem subFloat_flt (d1 d2 b : List Char) (h1 : d1 ≠ [])
    (hd1 : ∀ c ∈ d1, c.isDigit = true) (h2 : d2 ≠ [])
    (hd2 : ∀ c ∈ d2, c.isDigit = true)
    (hb : ∀ c, b.head? = some c → safeChar c = true) :
    subFloat ((d1 ++ '.' :: d2) ++ b) = "FLOAT".toList ++ subFloat b := by
  cases d1 with
  | nil => exact absurd rfl h1
  | cons x d1' =>
    have hdw1 : (d1' ++ '.' :: (d2 ++ b)).dropWhile Char.isDigit = '.' :: (d2 ++ b) := by
      refine dropWhile_append_all _ _ _
        (fun c hc => hd1 c (List.mem_cons_of_mem _ hc)) ?_
      intro c hc
      have : '.' = c := Option.some.inj hc
      rw [← this]
      decide
    have hdw2 : (d2 ++ b).dropWhile Char.isDigit = b :=
      dropWhile_append_all _ _ _ hd2 (fun c hc => safeChar_not_digit c (hb c hc))
    have htk : ((d2 ++ b).takeWhile Char.isDigit).isEmpty = false := by
      cases d2 with
      | nil => exact absurd rfl h2
      | cons e d2' =>
        simp only [List.cons_append, List.takeWhile]
        rw [hd2 e (List.mem_cons_self _ _)]
        simp
    rw [show ((x :: d1') ++ '.' :: d2) ++ b = x :: (d1' ++ '.' :: (d2 ++ b)) by simp]
    rw [subFloat.eq_def]
    split
    · rename_i heq
      simp at heq
    · rename_i heq
      injection heq with e1 e2
      rw [← e1, ← e2, if_pos (hd1 x (List.mem_cons_self _ _))]
      split
      · rename_i r2 heq2
        rw [hdw1] at heq2
        injection heq2 with e3 e4
        rw [← e4, if_neg (by rw [htk]; simp), hdw2]
      · rename_i hcon
        exact (hcon (d2 ++ b) hdw1).elim

theorem subFloat_render : ∀ cs, wfChunks cs = true →
    subFloat (flattenA cs) = flattenB cs := by
  intro cs
  induction cs with
  | nil => exact fun _ => subFloat_nil
  | cons ch rest ih =>
    intro hwf
    have hrest := wfChunks_tail ch rest hwf
    have hchwf := wfChunks_head ch rest hwf
    rw [flattenA_cons, flattenB_cons]
    cases ch with
    | lit s =>
      simp only [Chunk.wf, Bool.and_eq_true, List.all_eq_true, Bool.not_eq_true',
        decide_eq_true_eq] at hchwf
      rw [show chA (Chunk.lit s) = s from rfl, show chB (Chunk.lit s) = s from rfl,
        subFloat_pass s _ (fun c hc => (hchwf.2 c hc).1), ih hrest]
    | num d =>
      simp only [Chunk.wf, Bool.and_eq_true, List.all_eq_true] at hchwf
      have hb : ∀ c, (flattenA rest).head? = some c → safeChar c = true :=
        fun c hc => stream_head_safe chA (fun _ => rfl) (Chunk.num d) rest hwf
          (fun s h => by cases h) c hc
      rw [show chA (Chunk.num d) = d from rfl, show chB (Chunk.num d) = d from rfl,
        subFloat_digits d (flattenA rest) hchwf.2 hb, ih hrest]
    | flt d1 d2 =>
      simp only [Chunk.wf, Bool.and_eq_true, List.all_eq_true, Bool.not_eq_true'] at hchwf
      have hb : ∀ c, (flattenA rest).head? = some c → safeChar c = true :=
        fun c hc => stream_head_safe chA (fun _ => rfl) (Chunk.flt d1 d2) rest hwf
          (fun s h => by cases h) c hc
      have hn1 : d1 ≠ [] := by
        intro he
        rw [he] at hchwf
        simp at hchwf
      have hn2 : d2 ≠ [] := by
        intro he
        rw [he] at hchwf
        simp at hchwf
      rw [show chA (Chunk.flt d1 d2) = d1 ++ '.' :: d2 from rfl,
        show chB (Chunk.flt d1 d2) = "FLOAT".toList from rfl,
        subFloat_flt d1 d2 (flattenA rest) hn1 hchwf.1.1.2 hn2 hchwf.2 hb, ih hrest]
    | addr h0 =>
      rw [show chA (Chunk.addr h0) = "ADDR".toList from rfl,
        show chB (Chunk.addr h0) = "ADDR".toList from rfl,
        subFloat_pass "ADDR".toList _ (by decide), ih hrest]

/-- The character left of the scan position after a scan passes over `a`. -/
def prevAfterOpt : List Char → Option Char → Option Char
  | [], prev => prev
  | c :: a, _ => prevAfterOpt a (some c)

theorem prevAfterOpt_getLast : ∀ (a : List Char) (prev : Option Char) (g : Char),
    a.getLast? = some g → prevAfterOpt a prev = some g := by
  intro a
  induction a with
  | nil => intro prev g h; simp at h
  | cons c a' ih =>
    intro prev g h
    cases a' with
    | nil =>
      have : c = g := by simpa using h
      rw [show prevAfterOpt [c] prev = some c from rfl, this]
    | cons y ys =>
      rw [List.getLast?_cons_cons] at h
      exact ih (some c) g h

theorem subIntAux_nil (prev : Option Char) : subIntAux prev [] = [] := by
  rw [subIntAux.eq_def]

theorem subInt_cons_pass (prev : Option Char) (x : Char) (l : List Char)
    (hx : x.isDigit = false) :
    subIntAux prev (x :: l) = x :: subIntAux (some x) l := by
  rw [subIntAux.eq_def]
  split
  · rename_i heq
    simp at heq
  · rename_i heq
    injection heq with h1 h2
    rw [← h1, ← h2, if_neg (by rw [hx]; simp)]

theorem subInt_pass : ∀ (a : List Char) (prev : Option Char) (b : List Char),
    (∀ c ∈ a, c.isDigit = false) →
    subIntAux prev (a ++ b) = a ++ subIntAux (prevAfterOpt a prev) b := by
  intro a
  induction a with
  | nil => intro prev b _; rfl
  | cons x xs ih =>
    intro prev b ha
    rw [List.cons_append, subInt_cons_pass prev x _ (ha x (List.mem_cons_self _ _)),
      ih (some x) b (fun c hc => ha c (List.mem_cons_of_mem _ hc))]
    rfl

theorem subInt_num (c : Char) (d' b : List Char) (prev : Option Char)
    (hd : ∀ a ∈ c :: d', a.isDigit = true)
    (hprev : prev = none ∨ ∃ p, prev = some p ∧ isWordChar p = false)
    (hb : ∀ r, b.head? = some r → safeChar r = true) :
    subIntAux prev ((c :: d') ++ b) = "INT".toList ++ subIntAux (some c) b := by
  have hdw : (d' ++ b).dropWhile Char.isDigit = b :=
    dropWhile_append_all _ _ _ (fun a ha => hd a (List.mem_cons_of_mem _ ha))
      (fun a ha => safeChar_not_digit a (hb a ha))
  rw [List.cons_append, subIntAux.eq_def]
  split
  · rename_i heq
    simp at heq
  · rename_i heq
    injection heq with h1 h2
    rw [← h1, ← h2, if_pos]
    · split
      · rename_i heq2
        rw [hdw] at heq2
        rw [heq2, subIntAux_nil]
        simp
      · rename_i e r2 heq2
        rw [hdw] at heq2
        have hsafe := hb e (by rw [heq2]; rfl)
        rw [if_neg (by rw [safeChar_not_word e hsafe]; simp), heq2]
    · rw [hd c (List.mem_cons_self _ _)]
      rcases hprev with h | ⟨p, hp, hw⟩
      · rw [h]
        rfl
      · rw [hp]
        simp [hw]

/-- The look-behind invariant: when the next segment is an integer hole, the
character left of the scan position is absent or a non-word character. -/
def prevNumOK (prev : Option Char) (cs : List Chunk) : Prop :=
  match cs with
  | Chunk.num _ :: _ => prev = none ∨ ∃ p, prev = some p ∧ isWordChar p = false
  | _ => True

theorem prevNumOK_none (cs : List Chunk) : prevNumOK none cs := by
  unfold prevNumOK
  split
  · exact Or.inl rfl
  · trivial

theorem getLast_safe_of_okPair_num (s : List Char) (ch : Chunk)
    (hlit : ∀ t, ch ≠ Chunk.lit t)
    (hok : okPair (Chunk.lit s) ch = true) :
    ∃ g, s.getLast? = some g ∧ safeChar g = true := by
  have hok2 : (s.getLast?.map safeChar).getD false = true := by
    cases ch with
    | lit t => exact absurd rfl (hlit t)
    | num d => exact hok
    | flt d1 d2 => exact hok
    | addr h0 => exact hok
  cases hg : s.getLast? with
  | none => rw [hg] at hok2; simp at hok2
  | some g =>
    rw [hg] at hok2
    simp only [Option.map_some', Option.getD_some] at hok2
    exact ⟨g, rfl, hok2⟩

theorem subInt_render : ∀ (cs : List Chunk) (prev : Option Char), wfChunks cs = true →
    prevNumOK prev cs →
    subIntAux prev (flattenB cs) = scrubRender cs := by
  intro cs
  induction cs with
  | nil => intro prev _ _; exact subIntAux_nil prev
  | cons ch rest ih =>
    intro prev hwf hprev
    have hrest := wfChunks_tail ch rest hwf
    have hchwf := wfChunks_head ch rest hwf
    rw [flattenB_cons, scrubRender_cons]
    cases ch with
    | lit s =>
      simp only [Chunk.wf, Bool.and_eq_true, List.all_eq_true, Bool.not_eq_true',
        decide_eq_true_eq] at hchwf
      rw [show chB (Chunk.lit s) = s from rfl, show scrubC (Chunk.lit s) = s from rfl,
        subInt_pass s prev _ (fun c hc => (hchwf.2 c hc).1)]
      congr 1
      refine ih (prevAfterOpt s prev) hrest ?_
      unfold prevNumOK
      split
      · obtain ⟨g, hg, hgs⟩ := getLast_safe_of_okPair_num s _ (fun t h => by cases h)
          (okPair_of_wf _ _ _ hwf)
        exact Or.inr ⟨g, prevAfterOpt_getLast s prev g hg, safeChar_not_word g hgs⟩
      · trivial
    | num d =>
      simp only [Chunk.wf, Bool.and_eq_true, List.all_eq_true, Bool.not_eq_true'] at hchwf
      cases d with
      | nil => simp at hchwf
      | cons c d' =>
        have hb : ∀ r, (flattenB rest).head? = some r → safeChar r = true :=
          fun r hr => stream_head_safe chB (fun _ => rfl) (Chunk.num (c :: d')) rest hwf
            (fun s h => by cases h) r hr
        rw [show chB (Chunk.num (c :: d')) = c :: d' from rfl,
          show scrubC (Chunk.num (c :: d')) = "INT".toList from rfl,
          subInt_num c d' (flattenB rest) prev hchwf.2
            (by unfold prevNumOK at hprev; exact hprev) hb]
        congr 1
        refine ih (some c) hrest ?_
        unfold prevNumOK
        split
        · have hok := okPair_of_wf _ _ _ hwf
          simp [okPair] at hok
        · trivial
    | flt d1 d2 =>
      rw [show chB (Chunk.flt d1 d2) = "FLOAT".toList from rfl,
        show scrubC (Chunk.flt d1 d2) = "FLOAT".toList from rfl,
        subInt_pass "FLOAT".toList prev _ (by decide)]
      congr 1
      refine ih _ hrest ?_
      unfold prevNumOK
      split
      · have hok := okPair_of_wf _ _ _ hwf
        simp [okPair] at hok
      · trivial
    | addr h0 =>
      rw [show chB (Chunk.addr h0) = "ADDR".toList from rfl,
        show scrubC (Chunk.addr h0) = "ADDR".toList from rfl,
        subInt_pass "ADDR".toList prev _ (by decide)]
      congr 1
      refine ih _ hrest ?_
      unfold prevNumOK
      split
      · have hok := okPair_of_wf _ _ _ hwf
        simp [okPair] at hok
      · trivial

theorem clean_scrub (cs : List Chunk) (hwf : wfChunks cs = true) :
    subIntAux none (subFloat (subAddr (renderChunks cs))) = scrubRender cs := by
  rw [subAddr_render cs hwf, subFloat_render cs hwf,
    subInt_render cs none hwf (prevNumOK_none cs)]

theorem scrub_shape : ∀ (cs cs' : List Chunk), sameShapeL cs cs' = true →
    scrubRender cs = scrubRender cs' := by
  intro cs
  induction cs with
  | nil => intro cs' h; cases cs' <;> simp_all [sameShapeL]
  | cons a as ih =>
    intro cs' h
    cases cs' with
    | nil => simp [sameShapeL] at h
    | cons b bs =>
      simp only [sameShapeL, Bool.and_eq_true] at h
      rw [scrubRender_cons, scrubRender_cons, ih bs h.2]
      have : scrubC a = scrubC b := by
        cases a <;> cases b <;> simp_all [Chunk.sameShape, scrubC]
      rw [this]

theorem rtCleanLine_scrub (cs : List Chunk) (hwf : wfChunks cs = true) :
    rtCleanLine (renderChunks cs) = subSpace (subAtFile (subShape (scrubRender cs))) := by
  rw [rtCleanLine, clean_scrub cs hwf]

/- ====================================================================
C6: strip identity, line splitting and parallel line selection.
==================================================================== -/

theorem dropWhile_head_false (p : Char → Bool) (l : List Char)
    (h : ∀ c, l.head? = some c → p c = false) : l.dropWhile p = l := by
  cases l with
  | nil => rfl
  | cons c cs => simp [List.dropWhile, h c rfl]

theorem pyStripL_noEdge (l : List Char) (h : noEdgeSpace l = true) : pyStripL l = l := by
  simp only [noEdgeSpace, Bool.and_eq_true] at h
  have h1 : l.dropWhile pyIsSpace = l := by
    refine dropWhile_head_false _ _ (fun c hc => ?_)
    have h2 := h.1
    rw [hc] at h2
    simpa using h2
  rw [pyStripL, h1]
  have h2 : l.reverse.dropWhile pyIsSpace = l.reverse := by
    refine dropWhile_head_false _ _ (fun c hc => ?_)
    rw [List.head?_reverse] at hc
    have h3 := h.2
    rw [hc] at h3
    simpa using h3
  rw [h2, List.reverse_reverse]

theorem splitOnCharL_ne_nil (sep : Char) : ∀ l, splitOnCharL sep l ≠ [] := by
  intro l
  induction l with
  | nil => simp [splitOnCharL]
  | cons c cs ih =>
    simp only [splitOnCharL]
    cases h : splitOnCharL sep cs with
    | nil => simp
    | cons hd tl => split_ifs <;> simp

theorem splitOnCharL_no_sep (sep : Char) : ∀ l, sep ∉ l → splitOnCharL sep l = [l] := by
  intro l
  induction l with
  | nil => intro _; rfl
  | cons c cs ih =>
    intro h
    have hc : ¬(c = sep) := fun he => h (he ▸ List.mem_cons_self _ _)
    simp only [splitOnCharL]
    rw [ih (fun hm => h (List.mem_cons_of_mem _ hm))]
    simp [hc]

theorem splitOnCharL_append_sep (sep : Char) : ∀ a b, sep ∉ a →
    splitOnCharL sep (a ++ sep :: b) = a :: splitOnCharL sep b := by
  intro a
  induction a with
  | nil =>
    intro b _
    simp only [List.nil_append, splitOnCharL]
    cases h : splitOnCharL sep b with
    | nil => exact absurd h (splitOnCharL_ne_nil sep b)
    | cons hd tl => simp
  | cons x xs ih =>
    intro b ha
    have hx : ¬(x = sep) := fun he => ha (he ▸ List.mem_cons_self _ _)
    simp only [List.cons_append, splitOnCharL, List.append_eq]
    rw [ih b (fun hm => ha (List.mem_cons_of_mem _ hm))]
    simp [hx]

theorem chunk_no_newline (ch : Chunk) (hwf : ch.wf = true) : '\n' ∉ ch.render := by
  cases ch with
  | lit s =>
    simp only [Chunk.wf, Bool.and_eq_true, List.all_eq_true, Bool.not_eq_true',
      decide_eq_true_eq] at hwf
    intro hm
    exact (hwf.2 '\n' hm).2 rfl
  | num d =>
    simp only [Chunk.wf, Bool.and_eq_true, List.all_eq_true] at hwf
    intro hm
    exact absurd (hwf.2 '\n' hm) (by decide)
  | flt d1 d2 =>
    simp only [Chunk.wf, Bool.and_eq_true, List.all_eq_true] at hwf
    intro hm
    rcases List.mem_append.mp hm with h | h
    · exact absurd (hwf.1.1.2 '\n' h) (by decide)
    · rcases List.mem_cons.mp h with h | h
      · exact absurd h (by decide)
      · exact absurd (hwf.2 '\n' h) (by decide)
  | addr h0 =>
    simp only [Chunk.wf, Bool.and_eq_true, List.all_eq_true] at hwf
    intro hm
    rcases List.mem_cons.mp hm with h | h
    · exact absurd h (by decide)
    · rcases List.mem_cons.mp h with h | h
      · exact absurd h (by decide)
      · exact absurd (hwf.2 '\n' h) (by decide)

theorem renderChunks_no_newline : ∀ cs, wfChunks cs = true → '\n' ∉ renderChunks cs := by
  intro cs
  induction cs with
  | nil => intro _ hm; simp [renderChunks] at hm
  | cons ch rest ih =>
    intro hwf hm
    rw [renderChunks_cons] at hm
    rcases List.mem_append.mp hm with h | h
    · exact chunk_no_newline ch (wfChunks_head _ _ hwf) h
    · exact ih (wfChunks_tail _ _ hwf) h

theorem chunk_render_ne_nil (ch : Chunk) (hwf : ch.wf = true) : ch.render ≠ [] := by
  cases ch with
  | lit s =>
    simp only [Chunk.wf, Bool.and_eq_true, Bool.not_eq_true'] at hwf
    intro he
    rw [show Chunk.render (Chunk.lit s) = s from rfl] at he
    rw [he] at hwf
    simp at hwf
  | num d =>
    simp only [Chunk.wf, Bool.and_eq_true, Bool.not_eq_true'] at hwf
    intro he
    rw [show Chunk.render (Chunk.num d) = d from rfl] at he
    rw [he] at hwf
    simp at hwf
  | flt d1 d2 =>
    intro he
    rw [show Chunk.render (Chunk.flt d1 d2) = d1 ++ '.' :: d2 from rfl] at he
    exact absurd he (by simp)
  | addr h0 =>
    intro he
    exact absurd he (by simp [Chunk.render])

theorem renderChunks_eq_nil (cs : List Chunk) (hwf : wfChunks cs = true)
    (h : renderChunks cs = []) : cs = [] := by
  cases cs with
  | nil => rfl
  | cons ch rest =>
    rw [renderChunks_cons] at h
    exact absurd (List.append_eq_nil.mp h).1 (chunk_render_ne_nil ch (wfChunks_head _ _ hwf))

theorem split_renderLines : ∀ t, t ≠ [] → wfT t = true →
    splitOnCharL '\n' (renderLines t) = t.map renderChunks := by
  intro t
  induction t with
  | nil => intro h _; exact absurd rfl h
  | cons l ls ih =>
    intro _ hwf
    have hl : wfChunks l = true := wfT_mem _ hwf l (List.mem_cons_self _ _)
    have hls : wfT ls = true := by
      simp only [wfT, List.all_eq_true] at hwf ⊢
      exact fun x hx => hwf x (List.mem_cons_of_mem _ hx)
    cases ls with
    | nil =>
      rw [show renderLines [l] = renderChunks l from rfl,
        splitOnCharL_no_sep '\n' _ (renderChunks_no_newline l hl)]
      rfl
    | cons l2 ls2 =>
      rw [show renderLines (l :: l2 :: ls2) = renderChunks l ++ '\n' :: renderLines (l2 :: ls2)
          from rfl,
        splitOnCharL_append_sep '\n' _ _ (renderChunks_no_newline l hl),
        ih (by simp) hls]
      rfl

theorem find?_map_mine {α β : Type} (f : α → β) (p : β → Bool) : ∀ l : List α,
    (l.map f).find? p = (l.find? (fun x => p (f x))).map f := by
  intro l
  induction l with
  | nil => rfl
  | cons x xs ih =>
    simp only [List.map_cons, List.find?]
    cases hp : p (f x) with
    | true => rfl
    | false => exact ih

theorem find?_congr_mem {α : Type} (p q : α → Bool) : ∀ l : List α,
    (∀ x ∈ l, p x = q x) → l.find? p = l.find? q := by
  intro l
  induction l with
  | nil => intro _; rfl
  | cons x xs ih =>
    intro h
    simp only [List.find?]
    rw [h x (List.mem_cons_self _ _)]
    cases q x with
    | true => rfl
    | false => exact ih (fun y hy => h y (List.mem_cons_of_mem _ hy))

theorem find_pshape_shape : ∀ (u u' : List (List Chunk)), sameShapeT u u' = true →
    (u.find? pShape = none ∧ u'.find? pShape = none) ∨
    ∃ a b, u.find? pShape = some a ∧ u'.find? pShape = some b ∧ sameShapeL a b = true
      ∧ a ∈ u ∧ b ∈ u' := by
  intro u
  induction u with
  | nil =>
    intro u' h
    cases u' with
    | nil => exact Or.inl ⟨rfl, rfl⟩
    | cons b bs => simp [sameShapeT] at h
  | cons a u0 ih =>
    intro u' h
    cases u' with
    | nil => simp [sameShapeT] at h
    | cons b u0' =>
      simp only [sameShapeT, Bool.and_eq_true] at h
      have hp : pShape a = pShape b := pShape_shape a b h.1
      cases hpa : pShape a with
      | true =>
        refine Or.inr ⟨a, b, ?_, ?_, h.1, List.mem_cons_self _ _, List.mem_cons_self _ _⟩
        · simp [List.find?, hpa]
        · simp [List.find?, ← hp, hpa]
      | false =>
        have e1 : (a :: u0).find? pShape = u0.find? pShape := by
          simp [List.find?, hpa]
        have e2 : (b :: u0').find? pShape = u0'.find? pShape := by
          simp [List.find?, ← hp, hpa]
        rcases ih u0' h.2 with ⟨hn1, hn2⟩ | ⟨a0, b0, hf1, hf2, hs, hm1, hm2⟩
        · exact Or.inl ⟨by rw [e1, hn1], by rw [e2, hn2]⟩
        · exact Or.inr ⟨a0, b0, by rw [e1, hf1], by rw [e2, hf2], hs,
            List.mem_cons_of_mem _ hm1, List.mem_cons_of_mem _ hm2⟩

theorem getLastD_shape_gen : ∀ (t t' : List (List Chunk)) (da db : List Chunk),
    sameShapeT t t' = true → sameShapeL da db = true →
    sameShapeL (t.getLastD da) (t'.getLastD db) = true := by
  intro t
  induction t with
  | nil =>
    intro t' da db h hd
    cases t' with
    | nil => exact hd
    | cons b bs => simp [sameShapeT] at h
  | cons a as ih =>
    intro t' da db h hd
    cases t' with
    | nil => simp [sameShapeT] at h
    | cons b bs =>
      simp only [sameShapeT, Bool.and_eq_true] at h
      rw [List.getLastD_cons, List.getLastD_cons]
      exact ih bs a b h.2 h.1

theorem getLastD_map_ne_nil {α β : Type} (f : α → β) :
    ∀ (t : List α) (x : α) (y : β), t ≠ [] →
    (t.map f).getLastD y = f (t.getLastD x) := by
  intro t
  induction t with
  | nil => intro x y h; exact absurd rfl h
  | cons a as ih =>
    intro x y _
    cases as with
    | nil => rfl
    | cons a2 as2 =>
      rw [List.map_cons, List.getLastD_cons, List.getLastD_cons]
      exact ih a (f a) (by simp)

theorem getLastD_mem {α : Type} : ∀ (t : List α) (d : α), t ≠ [] → t.getLastD d ∈ t := by
  intro t
  induction t with
  | nil => intro d h; exact absurd rfl h
  | cons a as ih =>
    intro d _
    cases as with
    | nil => exact List.mem_cons_self _ _
    | cons a2 as2 =>
      rw [List.getLastD_cons]
      exact List.mem_cons_of_mem _ (ih a (by simp))

/- ====================================================================
C6: assembly — signature invariance and duplicate rejection.
==================================================================== -/

theorem toList_mk (l : List Char) : (String.mk l).toList = l := rfl

theorem mk_ne_empty (l : List Char) (h : l ≠ []) : String.mk l ≠ "" := by
  intro he
  exact h (congrArg String.data he)

theorem renderLines_nil_of_shape (t t' : List (List Chunk)) (hsh : sameShapeT t t' = true)
    (hwf : wfT t = true) (h : renderLines t = []) :
    renderLines t' = [] := by
  cases t with
  | nil =>
    cases t' with
    | nil => rfl
    | cons b bs => simp [sameShapeT] at hsh
  | cons l ls =>
    cases ls with
    | nil =>
      have hl0 : l = [] :=
        renderChunks_eq_nil l (wfT_mem _ hwf l (List.mem_cons_self _ _)) h
      cases t' with
      | nil => simp [sameShapeT] at hsh
      | cons b bs =>
        cases bs with
        | nil =>
          simp only [sameShapeT, Bool.and_eq_true] at hsh
          rw [hl0] at hsh
          have hb : b = [] := by
            cases b with
            | nil => rfl
            | cons c cs => simp [sameShapeL] at hsh
          rw [show renderLines [b] = renderChunks b from rfl, hb]
          rfl
        | cons b2 bs2 =>
          simp only [sameShapeT, Bool.and_eq_true] at hsh
          exact absurd hsh.2 (by simp [sameShapeT])
    | cons l2 ls2 =>
      rw [show renderLines (l :: l2 :: ls2)
          = renderChunks l ++ '\n' :: renderLines (l2 :: ls2) from rfl] at h
      exact absurd h (by simp)

theorem rt_get_signature_expand (msg : String) (h : ¬(msg = "")) :
    RealTimeBugDeduplicator.get_signature msg =
      (if containsSub msg "Segmentation fault" then "SEGFAULT"
       else String.mk ((pyStripL (rtCleanLine
         (((splitOnCharL '\n' (pyStripL msg.toList)).reverse.find? pLine).getD
           ((splitOnCharL '\n' (pyStripL msg.toList)).getLastD [])))).take 200)) := by
  simp only [RealTimeBugDeduplicator.get_signature]
  rw [if_neg h]
  rfl

theorem get_sig_shape (t1 t2 : List (List Chunk))
    (hsh : sameShapeT t1 t2 = true) (hwf1 : wfT t1 = true) (hwf2 : wfT t2 = true)
    (he1 : noEdgeSpace (renderLines t1) = true) (he2 : noEdgeSpace (renderLines t2) = true) :
    RealTimeBugDeduplicator.get_signature (String.mk (renderLines t1))
      = RealTimeBugDeduplicator.get_signature (String.mk (renderLines t2)) := by
  by_cases hE : renderLines t1 = []
  · have hE2 : renderLines t2 = [] := renderLines_nil_of_shape t1 t2 hsh hwf1 hE
    rw [hE, hE2]
  · have hE2 : renderLines t2 ≠ [] := by
      intro h
      exact hE (renderLines_nil_of_shape t2 t1 (sameShapeT_symm _ _ hsh) hwf2 h)
    have ht1 : t1 ≠ [] := by
      intro h
      rw [h] at hE
      exact hE rfl
    have ht2 : t2 ≠ [] := by
      intro h
      rw [h] at hE2
      exact hE2 rfl
    rw [rt_get_signature_expand _ (mk_ne_empty _ hE),
      rt_get_signature_expand _ (mk_ne_empty _ hE2)]
    have hseg : containsSub (String.mk (renderLines t1)) "Segmentation fault"
        = containsSub (String.mk (renderLines t2)) "Segmentation fault" := by
      show hasSubL "Segmentation fault".toList (renderLines t1)
        = hasSubL "Segmentation fault".toList (renderLines t2)
      rw [hasSubL_renderLines _ (by decide) t1 hwf1,
        hasSubL_renderLines _ (by decide) t2 hwf2]
      exact any_any_litHas_shape _ t1 t2 hsh
    have hlines1 : splitOnCharL '\n' (pyStripL (String.mk (renderLines t1)).toList)
        = t1.map renderChunks := by
      rw [toList_mk, pyStripL_noEdge _ he1, split_renderLines t1 ht1 hwf1]
    have hlines2 : splitOnCharL '\n' (pyStripL (String.mk (renderLines t2)).toList)
        = t2.map renderChunks := by
      rw [toList_mk, pyStripL_noEdge _ he2, split_renderLines t2 ht2 hwf2]
    rw [hlines1, hlines2, hseg]
    have hclean : rtCleanLine (((t1.map renderChunks).reverse.find? pLine).getD
          ((t1.map renderChunks).getLastD []))
        = rtCleanLine (((t2.map renderChunks).reverse.find? pLine).getD
          ((t2.map renderChunks).getLastD [])) := by
      rw [← List.map_reverse, ← List.map_reverse,
        find?_map_mine renderChunks pLine t1.reverse,
        find?_map_mine renderChunks pLine t2.reverse,
        find?_congr_mem _ pShape t1.reverse (fun x hx => pLine_render x
          (wfT_mem _ hwf1 x (List.mem_reverse.mp hx))),
        find?_congr_mem _ pShape t2.reverse (fun x hx => pLine_render x
          (wfT_mem _ hwf2 x (List.mem_reverse.mp hx)))]
      rcases find_pshape_shape t1.reverse t2.reverse (sameShapeT_reverse _ _ hsh) with
        ⟨hn1, hn2⟩ | ⟨a, b, hf1, hf2, hs, hm1, hm2⟩
      · rw [hn1, hn2]
        simp only [Option.map_none', Option.getD_none]
        rw [getLastD_map_ne_nil renderChunks t1 [] [] ht1,
          getLastD_map_ne_nil renderChunks t2 [] [] ht2]
        have hwl1 : wfChunks (t1.getLastD []) = true :=
          wfT_mem _ hwf1 _ (getLastD_mem t1 [] ht1)
        have hwl2 : wfChunks (t2.getLastD []) = true :=
          wfT_mem _ hwf2 _ (getLastD_mem t2 [] ht2)
        rw [rtCleanLine_scrub _ hwl1, rtCleanLine_scrub _ hwl2,
          scrub_shape _ _ (getLastD_shape_gen t1 t2 [] [] hsh rfl)]
      · rw [hf1, hf2]
        simp only [Option.map_some', Option.getD_some]
        have hwa : wfChunks a = true := wfT_mem _ hwf1 _ (List.mem_reverse.mp hm1)
        have hwb : wfChunks b = true := wfT_mem _ hwf2 _ (List.mem_reverse.mp hm2)
        rw [rtCleanLine_scrub _ hwa, rtCleanLine_scrub _ hwb, scrub_shape a b hs]
    rw [hclean]

theorem record_second_false (md5h : String → String) (d : RealTimeBugDeduplicator.State)
    (ot m1 m2 : String) (it1 it2 : Int)
    (hsig : RealTimeBugDeduplicator.get_signature m1
      = RealTimeBugDeduplicator.get_signature m2) :
    (RealTimeBugDeduplicator.record_bug md5h
      (RealTimeBugDeduplicator.record_bug md5h d ot m1 it1).2 ot m2 it2).1.1 = false := by
  simp only [RealTimeBugDeduplicator.record_bug, ← hsig]
  split_ifs with h1 h2 h3 h4 h5 h6 h7 h8 h9 h10 h11 h12 h13 h14 h15 h16
  all_goals try rfl
  · refine h5 ?_
    show md5h (RealTimeBugDeduplicator.get_signature m1)
      ∈ dictGetD (dictSet d.signatures "crash"
          (insert (md5h (RealTimeBugDeduplicator.get_signature m1))
            (dictGetD d.signatures "crash" ∅))) "crash" ∅
    rw [dictGetD_dictSet_self]
    exact Finset.mem_insert_self _ _
  · by_cases hc : pyLower ot = "crash"
    · refine h7 ?_
      show md5h (RealTimeBugDeduplicator.get_signature m1)
        ∈ dictGetD (dictSet d.signatures "crash"
            (insert (md5h (RealTimeBugDeduplicator.get_signature m1))
              (dictGetD d.signatures "crash" ∅))) (pyLower ot) ∅
      rw [hc, dictGetD_dictSet_self]
      exact Finset.mem_insert_self _ _
    · refine h4 ?_
      show (List.lookup (pyLower ot) (dictSet d.signatures "crash"
          (insert (md5h (RealTimeBugDeduplicator.get_signature m1))
            (dictGetD d.signatures "crash" ∅)))).isNone = true
      rw [lookup_dictSet_ne _ _ _ _ (fun he => hc he.symm)]
      exact h1
  · have h0 : (List.lookup (pyLower ot) (dictSet d.signatures (pyLower ot)
        (insert (md5h (RealTimeBugDeduplicator.get_signature m1))
          (dictGetD d.signatures (pyLower ot) ∅)))).isNone = true := h11
    rw [lookup_dictSet_self] at h0
    simp at h0
  · refine h14 ?_
    show md5h (RealTimeBugDeduplicator.get_signature m1)
      ∈ dictGetD (dictSet d.signatures (pyLower ot)
          (insert (md5h (RealTimeBugDeduplicator.get_signature m1))
            (dictGetD d.signatures (pyLower ot) ∅))) (pyLower ot) ∅
    rw [dictGetD_dictSet_self]
    exact Finset.mem_insert_self _ _

/-- C6.  Two raw diagnostic texts identical except for embedded decimal
number literals (integer or float) or hexadecimal addresses — rendered from
shape-equal well-formed templates: equal literal segments, holes of the same
kind in the same places, literals digit-free, holes flanked by non-word
non-dot characters, no edge whitespace — canonicalize to the same signature
under `RealTimeBugDeduplicator.get_signature`; and after `record_bug` has
been called on the first text, calling it on the second text in the same
bucket returns `is_new = false`. -/
theorem dedup_template_spec (md5h : String → String) (t1 t2 : List (List Chunk))
    (d : RealTimeBugDeduplicator.State) (ot : String) (it1 it2 : Int)
    (hsh : sameShapeT t1 t2 = true) (hwf1 : wfT t1 = true) (hwf2 : wfT t2 = true)
    (he1 : noEdgeSpace (renderLines t1) = true)
    (he2 : noEdgeSpace (renderLines t2) = true) :
    RealTimeBugDeduplicator.get_signature (String.mk (renderLines t1))
      = RealTimeBugDeduplicator.get_signature (String.mk (renderLines t2))
    ∧ (RealTimeBugDeduplicator.record_bug md5h
        (RealTimeBugDeduplicator.record_bug md5h d ot (String.mk (renderLines t1)) it1).2
        ot (String.mk (renderLines t2)) it2).1.1 = false := by
  have h := get_sig_shape t1 t2 hsh hwf1 hwf2 he1 he2
  exact ⟨h, record_second_false md5h _ ot _ _ it1 it2 h⟩

/-- C6 witness: two one-line diagnostics that differ only in an integer, a
float and an address meet the template hypotheses, and the theorem yields the
same signature and `is_new = false` on the second record. -/
theorem dedup_template_spec_witness :
    (sameShapeT
        [[Chunk.lit "Error: got ".toList, Chunk.num ['2'], Chunk.lit " and ".toList,
          Chunk.flt ['1'] ['5'], Chunk.lit " near ".toList, Chunk.addr ['a', 'f']]]
        [[Chunk.lit "Error: got ".toList, Chunk.num ['7', '1'], Chunk.lit " and ".toList,
          Chunk.flt ['0'] ['2', '5'], Chunk.lit " near ".toList,
          Chunk.addr ['b', 'e', 'e', 'f']]] = true
      ∧ wfT [[Chunk.lit "Error: got ".toList, Chunk.num ['2'], Chunk.lit " and ".toList,
          Chunk.flt ['1'] ['5'], Chunk.lit " near ".toList, Chunk.addr ['a', 'f']]] = true
      ∧ wfT [[Chunk.lit "Error: got ".toList, Chunk.num ['7', '1'], Chunk.lit " and ".toList,
          Chunk.flt ['0'] ['2', '5'], Chunk.lit " near ".toList,
          Chunk.addr ['b', 'e', 'e', 'f']]] = true
      ∧ noEdgeSpace (renderLines
          [[Chunk.lit "Error: got ".toList, Chunk.num ['2'], Chunk.lit " and ".toList,
            Chunk.flt ['1'] ['5'], Chunk.lit " near ".toList, Chunk.addr ['a', 'f']]]) = true
      ∧ noEdgeSpace (renderLines
          [[Chunk.lit "Error: got ".toList, Chunk.num ['7', '1'], Chunk.lit " and ".toList,
            Chunk.flt ['0'] ['2', '5'], Chunk.lit " near ".toList,
            Chunk.addr ['b', 'e', 'e', 'f']]]) = true)
    ∧ (RealTimeBugDeduplicator.get_signature (String.mk (renderLines
          [[Chunk.lit "Error: got ".toList, Chunk.num ['2'], Chunk.lit " and ".toList,
            Chunk.flt ['1'] ['5'], Chunk.lit " near ".toList, Chunk.addr ['a', 'f']]]))
        = RealTimeBugDeduplicator.get_signature (String.mk (renderLines
          [[Chunk.lit "Error: got ".toList, Chunk.num ['7', '1'], Chunk.lit " and ".toList,
            Chunk.flt ['0'] ['2', '5'], Chunk.lit " near ".toList,
            Chunk.addr ['b', 'e', 'e', 'f']]]))
      ∧ (RealTimeBugDeduplicator.record_bug (fun _ => "h")
          (RealTimeBugDeduplicator.record_bug (fun _ => "h")
            (RealTimeBugDeduplicator.State.mk0 10) "crash"
            (String.mk (renderLines
              [[Chunk.lit "Error: got ".toList, Chunk.num ['2'], Chunk.lit " and ".toList,
                Chunk.flt ['1'] ['5'], Chunk.lit " near ".toList,
                Chunk.addr ['a', 'f']]])) 0).2 "crash"
          (String.mk (renderLines
            [[Chunk.lit "Error: got ".toList, Chunk.num ['7', '1'], Chunk.lit " and ".toList,
              Chunk.flt ['0'] ['2', '5'], Chunk.lit " near ".toList,
              Chunk.addr ['b', 'e', 'e', 'f']]])) 1).1.1 = false) :=
  ⟨⟨by decide, by decide, by decide, by decide, by decide⟩,
    dedup_template_spec (fun _ => "h") _ _ (RealTimeBugDeduplicator.State.mk0 10) "crash" 0 1
      (by decide) (by decide) (by decide) (by decide) (by decide)⟩

end KernelGuided
